import Mathlib

/-!
# podcast2webdav: namespace build and request handler

A shallow embedding of `cmd/podcast2webdav/main.go`.

* Go strings are Lean `String`s; every separator the program looks for (`.`, `/`) is ASCII,
  so splitting on characters agrees with Go's splitting on bytes.
* The feed parser (`gofeed.Parser.ParseURL`), the outbound HTTP client (`http.Get`) and the
  WebDAV file system are external collaborators and parameters of the definitions below.
  `memFS` is the file system main really builds, `webdav.NewMemFS()`, for the two calls main
  makes on it; `statusSent` and `responseContentLength` are what net/http sends for a run of
  the handler.
* A runtime panic and `log.Fatalf` both end the process; they are the `Abort` results.
-/

namespace Podcast2Webdav

/-! ## Data model -/

/-- Fields of `gofeed.Enclosure` read by the program: `URL` and `Type`. -/
structure Enclosure where
  url : String
  type : String
deriving DecidableEq, Repr

/-- Calendar date of a `time.Time` in its own location: everything that
`Format(time.DateOnly)` reads. -/
structure Time where
  year : Int
  month : Nat
  day : Nat
deriving DecidableEq, Repr

/-- Fields of `gofeed.Item`: `Enclosures` and `PublishedParsed` (a pointer, `none` when nil) are
read by the program; `title` stands for the fields it only carries along. -/
structure Item where
  title : String
  enclosures : List Enclosure
  publishedParsed : Option Time
deriving DecidableEq, Repr

/-- Field `Items` of `gofeed.Feed`. -/
structure Feed where
  items : List Item
deriving DecidableEq, Repr

/-- One element of `Config.Feeds`. -/
structure FeedConfig where
  name : String
  url : String
deriving DecidableEq, Repr

/-- The type `Config` of main.go. -/
structure Config where
  appName : String
  feeds : List FeedConfig
deriving DecidableEq, Repr

/-- Ways the process ends early: the two runtime panics the code can raise, and `log.Fatalf`
with its format string and the error it is given as operand. -/
inductive Abort where
  | indexOutOfRange
  | nilDereference
  | fatal (format : String) (operand : String)
deriving DecidableEq, Repr

/-! ## Standard-library functions used by main.go -/

/-- Pieces of `s` between occurrences of `sep`, on character lists. -/
def splitChars (sep : Char) : List Char → List (List Char)
  | [] => [[]]
  | c :: cs =>
    if c = sep then [] :: splitChars sep cs
    else
      match splitChars sep cs with
      | [] => [[c]]
      | p :: ps => (c :: p) :: ps

/-- Go `strings.Split(s, sep)` for a one-character separator. -/
def stringsSplit (s : String) (sep : Char) : List String :=
  (splitChars sep s.data).map String.mk

/-- Go `strings.HasPrefix(s, pre)`. -/
def stringsHasPrefix (s pre : String) : Bool :=
  pre.data.isPrefixOf s.data

/-- Go `strconv.Itoa`, also `fmt.Sprintf("%d", n)`: decimal digits, with a leading `-` for a
negative number. -/
def strconvItoa (n : Int) : String :=
  toString n

/-- One step of reading a decimal numeral: the value of `acc` followed by the digit `c`. -/
def digitVal (acc : Nat) (c : Char) : Nat := acc * 10 + (c.toNat - 48)

/-- Go `appendInt` of package time: sign, then the decimal digits zero-padded to `width`. -/
def appendInt (x : Int) (width : Nat) : String :=
  let digits := toString x.natAbs
  (if x < 0 then "-" else "") ++ String.mk (List.replicate (width - digits.length) '0') ++ digits

/-- Go `t.Format(time.DateOnly)`, layout `2006-01-02`. -/
def Time.formatDateOnly (t : Time) : String :=
  appendInt t.year 4 ++ "-" ++ appendInt (t.month : Int) 2 ++ "-" ++ appendInt (t.day : Int) 2

/-! ## `makeEpisodeName` (main.go 145-151) -/

/-- The function `makeEpisodeName(index, item)`. `item.Enclosures[0]` panics on an item without
enclosure, `item.PublishedParsed.Format` panics on a nil date. -/
def makeEpisodeName (index : Int) (item : Item) : Except Abort String :=
  match item.enclosures[0]? with
  | none => .error .indexOutOfRange
  | some enclosure =>
    let url := enclosure.url
    let byDot := stringsSplit url '.'
    match item.publishedParsed with
    | none => .error .nilDereference
    | some published =>
      let date := published.formatDateOnly
      match byDot[byDot.length - 1]? with
      | none => .error .indexOutOfRange
      | some ext => .ok (date ++ "_episode" ++ strconvItoa index ++ "." ++ ext)

/-! ## `fetchFeeds` (main.go 43-56) -/

/-- The loop of `fetchFeeds`: a feed whose `ParseURL` fails is logged and skipped, a fetched feed
is appended to `feeds`. -/
def fetchFeedsLoop (parseURL : String → Except String Feed) :
    List FeedConfig → List Feed → List Feed
  | [], feeds => feeds
  | feedConfig :: rest, feeds =>
    match parseURL feedConfig.url with
    | .error _ => fetchFeedsLoop parseURL rest feeds
    | .ok feed => fetchFeedsLoop parseURL rest (feeds ++ [feed])

/-- The function `fetchFeeds(config)`; its error result is always nil, so only the slice is
returned. -/
def fetchFeeds (parseURL : String → Except String Feed) (config : Config) : List Feed :=
  fetchFeedsLoop parseURL config.feeds []

/-! ## The namespace build (main.go 84-100) -/

/-- The variable `episodeUrlMap`, a Go `map[string]*gofeed.Item`, as an association list with at
most one entry per key. -/
abbrev EpisodeMap := List (String × Item)

/-- Go map assignment `m[k] = v`. -/
def EpisodeMap.set (m : EpisodeMap) (k : String) (v : Item) : EpisodeMap :=
  (k, v) :: m.filter (fun e => decide (e.1 ≠ k))

/-- Go map read `m[k]`; `none` is the nil pointer returned for a missing key. -/
def EpisodeMap.get (m : EpisodeMap) (k : String) : Option Item :=
  m.lookup k

/-- Keys of the map. -/
def EpisodeMap.keys (m : EpisodeMap) : List String :=
  m.map Prod.fst

/-- The calls main makes on the `webdav.FileSystem` it builds: `newMemFS` is the fresh file
system, `mkdir` is `Mkdir` (main discards its error), `openFile` is
`OpenFile(path, O_CREATE|O_RDWR, 0644)` followed by the empty `Write` and `Close`; an error of
`openFile` is the `err != nil` that main answers with `log.Fatalf`. -/
structure FileSystem (σ : Type) where
  newMemFS : σ
  mkdir : σ → String → σ
  openFile : σ → String → Except String σ

/-- State of the build: the file system and `episodeUrlMap`. -/
structure BuildState (σ : Type) where
  fs : σ
  episodeUrlMap : EpisodeMap

/-- The expression of main.go 91:
`feedBasePath + "/" + makeEpisodeName(len(feeds[i].Items) - j, item)`. -/
def episodePath (feedBasePath : String) (total j : Nat) (item : Item) : Except Abort String :=
  match makeEpisodeName ((total : Int) - (j : Int)) item with
  | .error e => .error e
  | .ok name => .ok (feedBasePath ++ "/" ++ name)

/-- The inner loop `for j, item := range feeds[i].Items` (main.go 90-99), from position `j`. -/
def buildItems {σ : Type} (fsys : FileSystem σ) (feedBasePath : String) (total : Nat) :
    Nat → List Item → BuildState σ → Except Abort (BuildState σ)
  | _, [], st => .ok st
  | j, item :: rest, st =>
    match episodePath feedBasePath total j item with
    | .error e => .error e
    | .ok path =>
      match fsys.openFile st.fs path with
      | .error err => .error (.fatal ("Failed to create episode path: " ++ path) err)
      | .ok fs1 =>
        buildItems fsys feedBasePath total (j + 1) rest
          { fs := fs1, episodeUrlMap := st.episodeUrlMap.set path item }

/-- The outer loop `for i, feedConfig := range config.Feeds` (main.go 87-100), from position
`i`; `feeds[i]` panics when `feeds` is shorter than `config.Feeds`. -/
def buildFeeds {σ : Type} (fsys : FileSystem σ) (feeds : List Feed) :
    Nat → List FeedConfig → BuildState σ → Except Abort (BuildState σ)
  | _, [], st => .ok st
  | i, feedConfig :: rest, st =>
    let feedBasePath := "/podcasts/" ++ feedConfig.name
    let fs1 := fsys.mkdir st.fs feedBasePath
    match feeds[i]? with
    | none => .error .indexOutOfRange
    | some feed =>
      match buildItems fsys feedBasePath feed.items.length 0 feed.items
          { fs := fs1, episodeUrlMap := st.episodeUrlMap } with
      | .error e => .error e
      | .ok st1 => buildFeeds fsys feeds (i + 1) rest st1

/-- Startup of main from the parsed configuration to the end of the build loop
(main.go 76-100). -/
def mainBuild {σ : Type} (fsys : FileSystem σ) (parseURL : String → Except String Feed)
    (config : Config) : Except Abort (BuildState σ) :=
  let feeds := fetchFeeds parseURL config
  let fs0 := fsys.mkdir fsys.newMemFS "/podcasts"
  buildFeeds fsys feeds 0 config.feeds { fs := fs0, episodeUrlMap := [] }

/-- Calls received by a file system. -/
inductive FsCall where
  | mkdir (path : String)
  | openFile (path : String)
deriving DecidableEq, Repr

/-- A file system that accepts every call and records it, to run the build on concrete
configurations. -/
def recordingFS : FileSystem (List FsCall) where
  newMemFS := []
  mkdir := fun calls path => calls ++ [FsCall.mkdir path]
  openFile := fun calls path => .ok (calls ++ [FsCall.openFile path])

/-! ## The request handler (main.go 108-138) -/

/-- Fields of `http.Request` read by the handler: `Method` and `URL.Path`. -/
structure Request where
  method : String
  urlPath : String
deriving DecidableEq, Repr

/-- Fields of the `http.Response` returned by `http.Get`: `contentLength` is `ContentLength`
(`-1` when the length is unknown), `body` the bytes that `Body` yields. -/
structure UpstreamResponse where
  statusCode : Nat
  contentLength : Int
  body : List UInt8
deriving DecidableEq, Repr

/-- What the handler does, in order. -/
inductive Action where
  | httpGet (url : String)
  | httpError (msg : String) (code : Nat)
  | setHeader (key value : String)
  | ioCopy (body : List UInt8)
  | bodyClose
  | serveHTTP
deriving DecidableEq, Repr

/-- The function registered with `http.HandleFunc("/", ...)`, as the list of its actions.
`httpGet` is the outbound `http.Get`, an `error` being its `err != nil`. -/
def mainHandler (episodeUrlMap : EpisodeMap) (httpGet : String → Except String UpstreamResponse)
    (r : Request) : Except Abort (List Action) :=
  if r.method = "GET" then
    let webdavFilePath := r.urlPath
    if stringsHasPrefix webdavFilePath "/podcasts/" then
      match episodeUrlMap.get webdavFilePath with
      | none => .ok []
      | some episode =>
        match episode.enclosures[0]? with
        | none => .error .indexOutOfRange
        | some enclosure =>
          match httpGet enclosure.url with
          | .error _ =>
            .ok [.httpGet enclosure.url, .httpError "Error fetching audio content" 500]
          | .ok resp =>
            .ok [.httpGet enclosure.url,
              .setHeader "Content-Type" enclosure.type,
              .setHeader "Content-Length" (strconvItoa resp.contentLength),
              .ioCopy resp.body,
              .bodyClose]
    else .ok [.serveHTTP]
  else .ok [.serveHTTP]

/-- URLs fetched upstream by a run of the handler. -/
def upstreamFetches : List Action → List String
  | [] => []
  | .httpGet url :: rest => url :: upstreamFetches rest
  | _ :: rest => upstreamFetches rest

/-- Whether the run handed the request to the WebDAV handler (`handler.ServeHTTP`). -/
def delegated (actions : List Action) : Bool :=
  actions.contains Action.serveHTTP

/-- Bytes the handler itself wrote to the client: `io.Copy` relays the upstream body,
`http.Error` prints its message and a newline. -/
def bodyWritten : List Action → List UInt8
  | [] => []
  | .ioCopy body :: rest => body ++ bodyWritten rest
  | .httpError msg _ :: rest => (msg ++ "\n").toUTF8.data.toList ++ bodyWritten rest
  | _ :: rest => bodyWritten rest

/-- Status of the response of a run that did not delegate: the code given to `http.Error` if
there is one, and otherwise the 200 that net/http sends for a handler that writes a body or
returns without calling `WriteHeader`. -/
def statusSent : List Action → Nat
  | [] => 200
  | .httpError _ code :: _ => code
  | .ioCopy _ :: _ => 200
  | _ :: rest => statusSent rest

/-! ## The in-memory file system of package webdav -/

/-- One element of Go `path.Clean` on a rooted path: an empty element and `.` are dropped, `..`
removes the element before it (none at the root), another element is kept. -/
def cleanStep (stack : List String) (seg : String) : List String :=
  if seg = "" ∨ seg = "." then stack
  else if seg = ".." then stack.dropLast
  else stack ++ [seg]

/-- Elements of `slashClean(name)` below the root, the fragments that `memFS.walk` visits; the
root itself is the empty list. -/
def memPath (name : String) : List String :=
  (stringsSplit name '/').foldl cleanStep []

/-- Nodes of a `webdav.NewMemFS()` below its root: the elements of the path of each node, and
whether it is a directory. -/
abbrev MemFS := List (List String × Bool)

/-- The walk of `memFS.find` from directory `dir` along `frags`: every fragment but the last
must name a directory. -/
def MemFS.walk (fs : MemFS) : List String → List String → Except String Unit
  | _, [] => .ok ()
  | dir, frag :: rest =>
    if rest = [] then .ok ()
    else
      match fs.lookup (dir ++ [frag]) with
      | none => .error "file does not exist"
      | some false => .error "invalid argument"
      | some true => MemFS.walk fs (dir ++ [frag]) rest

/-- The method `memFS.Mkdir`: the parent must exist, the root cannot be created, an existing
name is an error. -/
def MemFS.mkdir (fs : MemFS) (name : String) : Except String MemFS :=
  match fs.walk [] (memPath name) with
  | .error e => .error e
  | .ok _ =>
    if memPath name = [] then .error "invalid argument"
    else
      match fs.lookup (memPath name) with
      | some _ => .error "file already exists"
      | none => .ok (fs ++ [(memPath name, true)])

/-- The method `memFS.OpenFile` with flags `O_CREATE|O_RDWR`: the parent must exist, the root
cannot be opened for writing, a missing node is created as a file, an existing node is
opened. -/
def MemFS.openFile (fs : MemFS) (name : String) : Except String MemFS :=
  match fs.walk [] (memPath name) with
  | .error e => .error e
  | .ok _ =>
    if memPath name = [] then .error "permission denied"
    else
      match fs.lookup (memPath name) with
      | some _ => .ok fs
      | none => .ok (fs ++ [(memPath name, false)])

/-- The file system `webdav.NewMemFS()` as main uses it. -/
def memFS : FileSystem MemFS where
  newMemFS := []
  mkdir := fun fs name =>
    match MemFS.mkdir fs name with
    | .ok fs1 => fs1
    | .error _ => fs
  openFile := MemFS.openFile

/-- Number of files in the file system. -/
def MemFS.fileCount (fs : MemFS) : Nat :=
  (fs.filter (fun node => !node.2)).length

/-! ## Response headers -/

/-- Value of a run of decimal digits, `none` for an empty run or another character. -/
def parseDigits (ds : List Char) : Option Nat :=
  if ds ≠ [] ∧ ds.all Char.isDigit = true then some (ds.foldl digitVal 0) else none

/-- Go `strconv.ParseInt(s, 10, 64)`: an optional sign and decimal digits, within the range of
`int64`; `none` is its error. -/
def strconvParseInt (s : String) : Option Int :=
  match s.data with
  | [] => none
  | c :: ds =>
    if c = '-' then
      match parseDigits ds with
      | some n => if n ≤ 2 ^ 63 then some (-(n : Int)) else none
      | none => none
    else if c = '+' then
      match parseDigits ds with
      | some n => if n < 2 ^ 63 then some (n : Int) else none
      | none => none
    else
      match parseDigits (c :: ds) with
      | some n => if n < 2 ^ 63 then some (n : Int) else none
      | none => none

/-- Effect of one action on field `key` of `w.Header()`: `Set` replaces the value; `http.Error`
deletes `Content-Length` and sets `Content-Type` and `X-Content-Type-Options`. -/
def headerStep (key : String) (cur : Option String) : Action → Option String
  | .setHeader k v => if k = key then some v else cur
  | .httpError _ _ =>
    if key = "Content-Length" then none
    else if key = "Content-Type" then some "text/plain; charset=utf-8"
    else if key = "X-Content-Type-Options" then some "nosniff"
    else cur
  | _ => cur

/-- Field `key` of `w.Header()` as the handler leaves it. -/
def handlerHeader (key : String) (actions : List Action) : Option String :=
  actions.foldl (headerStep key) none

/-- The `Content-Length` field that the response carries from the handler: net/http
(`response.WriteHeader`) keeps the value the handler set when `strconv.ParseInt` accepts it and
it is not negative; another value is logged as invalid and the response is sent without the
field. -/
def responseContentLength (actions : List Action) : Option String :=
  match handlerHeader "Content-Length" actions with
  | none => none
  | some v =>
    match strconvParseInt v with
    | some n => if 0 ≤ n then some v else none
    | none => none

/-! ## Concrete configurations -/

/-- Item A of the feed `Tech`: published 2024-01-02, enclosure `https://cdn/x.mp3`. -/
def techItemA : Item :=
  { title := "A", enclosures := [⟨"https://cdn/x.mp3", "audio/mpeg"⟩],
    publishedParsed := some ⟨2024, 1, 2⟩ }

/-- Item B of the feed `Tech`: published 2024-01-01, enclosure `https://cdn/y.mp3`. -/
def techItemB : Item :=
  { title := "B", enclosures := [⟨"https://cdn/y.mp3", "audio/mpeg"⟩],
    publishedParsed := some ⟨2024, 1, 1⟩ }

/-- The feed `Tech`, newest item first. -/
def techFeed : Feed := { items := [techItemA, techItemB] }

/-- An item without enclosure, as a text-only post has. -/
def noteItem : Item :=
  { title := "note", enclosures := [], publishedParsed := some ⟨2024, 1, 3⟩ }

/-- A feed with a text-only post between two episodes. -/
def notesFeed : Feed := { items := [techItemA, noteItem, techItemB] }

/-- Two episodes of the same day with the same extension. -/
def sameDayItems : List Item :=
  [{ title := "morning", enclosures := [⟨"https://cdn/a.mp3", "audio/mpeg"⟩],
     publishedParsed := some ⟨2024, 1, 1⟩ },
   { title := "evening", enclosures := [⟨"https://cdn/b.mp3", "audio/mpeg"⟩],
     publishedParsed := some ⟨2024, 1, 1⟩ }]

/-- A feed source: two feeds can be fetched, every other URL fails. -/
def exampleParseURL : String → Except String Feed := fun url =>
  if url = "https://tech.example/rss" then .ok techFeed
  else if url = "https://notes.example/rss" then .ok notesFeed
  else .error "no such host"

/-- Configuration with the single feed `Tech`. -/
def techConfig : Config :=
  { appName := "podcasts", feeds := [⟨"Tech", "https://tech.example/rss"⟩] }

/-- Configuration whose first feed cannot be fetched. -/
def downConfig : Config :=
  { appName := "podcasts",
    feeds := [⟨"Down", "https://down.example/rss"⟩, ⟨"Tech", "https://tech.example/rss"⟩] }

/-- Configuration with the feed that holds a text-only post. -/
def notesConfig : Config :=
  { appName := "podcasts", feeds := [⟨"Notes", "https://notes.example/rss"⟩] }

/-- The map `episodeUrlMap` built for `techConfig`. -/
def techMap : EpisodeMap :=
  [("/podcasts/Tech/2024-01-01_episode1.mp3", techItemB),
   ("/podcasts/Tech/2024-01-02_episode2.mp3", techItemA)]

/-- State at the end of the build for `techConfig` on the recording file system. -/
def techState : BuildState (List FsCall) :=
  { fs := [FsCall.mkdir "/podcasts", FsCall.mkdir "/podcasts/Tech",
      FsCall.openFile "/podcasts/Tech/2024-01-02_episode2.mp3",
      FsCall.openFile "/podcasts/Tech/2024-01-01_episode1.mp3"],
    episodeUrlMap := techMap }

/-- GET of the path of item A. -/
def episodeRequest : Request :=
  { method := "GET", urlPath := "/podcasts/Tech/2024-01-02_episode2.mp3" }

/-- GET of a path under `/podcasts/` that the build did not register. -/
def missingRequest : Request :=
  { method := "GET", urlPath := "/podcasts/Tech/missing.mp3" }

/-- An upstream that cannot be reached. -/
def upstreamDown : String → Except String UpstreamResponse :=
  fun _ => .error "connection refused"

/-- An upstream that answers 404 with a short body. -/
def upstreamNotFound : String → Except String UpstreamResponse :=
  fun _ => .ok { statusCode := 404, contentLength := 3, body := [110, 111, 10] }

/-- An upstream that answers 200 without announcing a length. -/
def upstreamUnsized : String → Except String UpstreamResponse :=
  fun _ => .ok { statusCode := 200, contentLength := -1, body := [1, 2, 3] }

/-- An upstream that answers 200 with three bytes and their length. -/
def upstreamSized : String → Except String UpstreamResponse :=
  fun _ => .ok { statusCode := 200, contentLength := 3, body := [1, 2, 3] }

/-- An episode whose enclosure URL has no file extension. -/
def streamItem : Item :=
  { title := "stream",
    enclosures := [⟨"https://media.example.com/episodes/123", "audio/mpeg"⟩],
    publishedParsed := some ⟨2024, 1, 2⟩ }

/-- A feed with the single episode `streamItem`. -/
def streamFeed : Feed := { items := [streamItem] }

/-- A feed source that serves `streamFeed`. -/
def streamParseURL : String → Except String Feed := fun url =>
  if url = "https://stream.example/rss" then .ok streamFeed else .error "no such host"

/-- Configuration with the single feed `Stream`. -/
def streamConfig : Config :=
  { appName := "podcasts", feeds := [⟨"Stream", "https://stream.example/rss"⟩] }

/-- Configuration that lists the feed `Tech` twice. -/
def twiceConfig : Config :=
  { appName := "podcasts",
    feeds := [⟨"Tech", "https://tech.example/rss"⟩, ⟨"Tech", "https://tech.example/rss"⟩] }

/-- State of the build on the in-memory file system when the loop over a feed named `Daily`
starts: the two directories exist, the map is empty. -/
def dailyStart : BuildState MemFS :=
  { fs := [(["podcasts"], true), (["podcasts", "Daily"], true)], episodeUrlMap := [] }

/-- State after the loop over `sameDayItems` from `dailyStart`. -/
def dailyEnd : BuildState MemFS :=
  { fs := [(["podcasts"], true), (["podcasts", "Daily"], true),
      (["podcasts", "Daily", "2024-01-01_episode2.mp3"], false),
      (["podcasts", "Daily", "2024-01-01_episode1.mp3"], false)],
    episodeUrlMap := [("/podcasts/Daily/2024-01-01_episode1.mp3",
        { title := "evening", enclosures := [⟨"https://cdn/b.mp3", "audio/mpeg"⟩],
          publishedParsed := some ⟨2024, 1, 1⟩ }),
      ("/podcasts/Daily/2024-01-01_episode2.mp3",
        { title := "morning", enclosures := [⟨"https://cdn/a.mp3", "audio/mpeg"⟩],
          publishedParsed := some ⟨2024, 1, 1⟩ })] }

/-- State of the build on the in-memory file system after the first iteration of the loop for
`downConfig`: the items of the feed `Tech` under the name `Down`. -/
def downState : BuildState MemFS :=
  { fs := [(["podcasts"], true), (["podcasts", "Down"], true),
      (["podcasts", "Down", "2024-01-02_episode2.mp3"], false),
      (["podcasts", "Down", "2024-01-01_episode1.mp3"], false)],
    episodeUrlMap := [("/podcasts/Down/2024-01-01_episode1.mp3", techItemB),
      ("/podcasts/Down/2024-01-02_episode2.mp3", techItemA)] }

/-! ## Lists and decimal numerals -/

theorem split_first {α : Type} (c : α) : ∀ (a a' b b' : List α), c ∉ a → c ∉ a' →
    a ++ c :: b = a' ++ c :: b' → a = a' ∧ b = b'
  | [], [], b, b', _, _, h => by simpa using h
  | [], x :: a', b, b', _, h', h => by
    simp only [List.nil_append, List.cons_append, List.cons.injEq] at h
    exact absurd h.1 (fun e => h' (by simp [e]))
  | x :: a, [], b, b', h', _, h => by
    simp only [List.nil_append, List.cons_append, List.cons.injEq] at h
    exact absurd h.1 (fun e => h' (by simp [e]))
  | x :: a, y :: a', b, b', ha, ha', h => by
    simp only [List.cons_append, List.cons.injEq] at h
    have := split_first c a a' b b' (fun m => ha (List.mem_cons_of_mem _ m))
      (fun m => ha' (List.mem_cons_of_mem _ m)) h.2
    exact ⟨by rw [h.1, this.1], this.2⟩

theorem split_last {α : Type} (c : α) (a a' b b' : List α) (hb : c ∉ b) (hb' : c ∉ b')
    (h : a ++ c :: b = a' ++ c :: b') : a = a' ∧ b = b' := by
  have h2 := congrArg List.reverse h
  simp only [List.reverse_append, List.reverse_cons, List.append_assoc, List.singleton_append] at h2
  have := split_first c b.reverse b'.reverse a.reverse a'.reverse (by simpa using hb)
    (by simpa using hb') h2
  exact ⟨List.reverse_injective this.2, List.reverse_injective this.1⟩

theorem digitChar_val (k : Nat) (hk : k < 10) : (Nat.digitChar k).toNat - 48 = k := by
  interval_cases k <;> rfl

theorem digitChar_isDigit (k : Nat) (hk : k < 10) : (Nat.digitChar k).isDigit = true := by
  interval_cases k <;> rfl

theorem toDigitsCore_value : ∀ (fuel n : Nat) (acc : List Char), n < fuel →
    (Nat.toDigitsCore 10 fuel n acc).foldl digitVal 0 = acc.foldl digitVal n
  | 0, n, acc, h => by omega
  | fuel + 1, n, acc, h => by
    simp only [Nat.toDigitsCore]
    split
    · rename_i h0
      simp only [List.foldl_cons, digitVal, digitChar_val _ (Nat.mod_lt n (by decide))]
      congr 1; omega
    · rename_i h0
      rw [toDigitsCore_value fuel (n / 10) _ (by omega)]
      simp only [List.foldl_cons, digitVal, digitChar_val _ (Nat.mod_lt n (by decide))]
      congr 1; omega

theorem toDigits_injective (a b : Nat) (h : Nat.toDigits 10 a = Nat.toDigits 10 b) : a = b := by
  have ha := toDigitsCore_value (a + 1) a [] (by omega)
  have hb := toDigitsCore_value (b + 1) b [] (by omega)
  simp only [List.foldl_nil] at ha hb
  unfold Nat.toDigits at h
  rw [← ha, ← hb, h]

theorem toDigitsCore_isDigit : ∀ (fuel n : Nat) (acc : List Char),
    (∀ c ∈ acc, c.isDigit = true) → ∀ c ∈ Nat.toDigitsCore 10 fuel n acc, c.isDigit = true
  | 0, n, acc, h => by simpa [Nat.toDigitsCore] using h
  | fuel + 1, n, acc, h => by
    have hd : ∀ c ∈ Nat.digitChar (n % 10) :: acc, c.isDigit = true := by
      intro c hc
      rcases List.mem_cons.1 hc with rfl | hc
      · exact digitChar_isDigit _ (Nat.mod_lt n (by decide))
      · exact h c hc
    simp only [Nat.toDigitsCore]
    split
    · exact hd
    · exact toDigitsCore_isDigit fuel (n / 10) _ hd

theorem repr_isDigit (n : Nat) : ∀ c ∈ (toString n).data, c.isDigit = true := by
  show ∀ c ∈ (Nat.repr n).data, c.isDigit = true
  exact toDigitsCore_isDigit _ _ [] (by simp)

theorem repr_injective (a b : Nat) (h : toString a = toString b) : a = b := by
  apply toDigits_injective
  have : (Nat.repr a).data = (Nat.repr b).data := congrArg String.data h
  exact this

/-! ## `strings.Split` -/

theorem splitChars_ne_nil (sep : Char) : ∀ s : List Char, splitChars sep s ≠ []
  | [] => by simp [splitChars]
  | c :: cs => by
    unfold splitChars
    split
    · simp
    · split <;> simp

theorem splitChars_append_sep (sep : Char) (b : List Char) : ∀ a : List Char,
    splitChars sep (a ++ sep :: b) = splitChars sep a ++ splitChars sep b
  | [] => by simp [splitChars]
  | c :: a => by
    have ih := splitChars_append_sep sep b a
    by_cases hc : c = sep
    · simp [splitChars, hc, ih]
    · have hne := splitChars_ne_nil sep a
      cases hs : splitChars sep a with
      | nil => exact absurd hs hne
      | cons p ps =>
        have e : splitChars sep (c :: a ++ sep :: b)
            = (match splitChars sep (a ++ sep :: b) with
              | [] => [[c]]
              | p :: ps => (c :: p) :: ps) := by
          simp only [List.cons_append, splitChars, hc, if_false]
          rfl
        rw [e, ih, hs]
        simp only [List.cons_append, splitChars, hc, if_false, hs]

theorem splitChars_of_not_mem (sep : Char) : ∀ s : List Char, sep ∉ s → splitChars sep s = [s]
  | [], _ => rfl
  | c :: cs, h => by
    have hc : ¬ c = sep := fun e => h (by simp [e])
    have ih := splitChars_of_not_mem sep cs (fun m => h (List.mem_cons_of_mem _ m))
    simp [splitChars, hc, ih]

theorem not_mem_of_mem_splitChars (sep : Char) : ∀ (s seg : List Char),
    seg ∈ splitChars sep s → sep ∉ seg
  | [], seg, h => by
    simp only [splitChars, List.mem_singleton] at h
    simp [h]
  | c :: cs, seg, h => by
    have ih := not_mem_of_mem_splitChars sep cs
    by_cases hc : c = sep
    · simp only [splitChars, hc, if_true, List.mem_cons] at h
      rcases h with rfl | h
      · simp
      · exact ih seg h
    · cases hs : splitChars sep cs with
      | nil => exact absurd hs (splitChars_ne_nil sep cs)
      | cons p ps =>
        simp only [splitChars, hc, if_false, hs, List.mem_cons] at h
        rcases h with rfl | h
        · intro hm
          rcases List.mem_cons.1 hm with e | hm
          · exact hc e.symm
          · exact ih p (by simp [hs]) hm
        · exact ih seg (by simp [hs, h])

/-- The last piece of `strings.Split(url, ".")`: what `byDot[len(byDot)-1]` reads. -/
theorem stringsSplit_last_exists (url : String) :
    ∃ ext, (stringsSplit url '.')[(stringsSplit url '.').length - 1]? = some ext ∧
      '.' ∉ ext.data := by
  have hne : stringsSplit url '.' ≠ [] := by
    simp [stringsSplit, splitChars_ne_nil]
  have hlt : (stringsSplit url '.').length - 1 < (stringsSplit url '.').length := by
    have := List.length_pos.2 hne
    omega
  refine ⟨(stringsSplit url '.')[(stringsSplit url '.').length - 1], ?_, ?_⟩
  · exact List.getElem?_eq_getElem hlt
  · have hm : (stringsSplit url '.')[(stringsSplit url '.').length - 1] ∈ stringsSplit url '.' :=
      List.getElem_mem hlt
    generalize (stringsSplit url '.')[(stringsSplit url '.').length - 1] = last at hm
    simp only [stringsSplit, List.mem_map] at hm
    obtain ⟨seg, hseg, he⟩ := hm
    rw [← he]
    exact not_mem_of_mem_splitChars '.' _ seg hseg

theorem stringsSplit_last_of_suffix (pre suf : String) (h : '.' ∉ suf.data) :
    (stringsSplit (pre ++ "." ++ suf) '.')[(stringsSplit (pre ++ "." ++ suf) '.').length - 1]?
      = some suf := by
  have hd : (pre ++ "." ++ suf).data = pre.data ++ '.' :: suf.data := by
    simp [String.data_append]
  have hs : stringsSplit (pre ++ "." ++ suf) '.'
      = (splitChars '.' pre.data).map String.mk ++ [suf] := by
    simp [stringsSplit, hd, splitChars_append_sep, splitChars_of_not_mem _ _ h]
  rw [hs]
  simp

/-! ## Shape of episode names and paths -/

theorem strconvItoa_sub (total j : Nat) (h : j ≤ total) :
    strconvItoa ((total : Int) - (j : Int)) = toString (total - j) := by
  rw [← Int.ofNat_sub h]
  rfl

theorem appendInt_chars (x : Int) (w : Nat) :
    ∀ c ∈ (appendInt x w).data, c.isDigit = true ∨ c = '-' := by
  intro c hc
  simp only [appendInt, String.data_append, List.mem_append] at hc
  rcases hc with (hc | hc) | hc
  · split at hc
    · right
      simpa using hc
    · simp at hc
  · left
    rw [List.eq_of_mem_replicate hc]
    rfl
  · left
    exact repr_isDigit _ c hc

theorem formatDateOnly_chars (t : Time) :
    ∀ c ∈ t.formatDateOnly.data, c.isDigit = true ∨ c = '-' := by
  intro c hc
  simp only [Time.formatDateOnly, String.data_append, List.mem_append] at hc
  rcases hc with (((hc | hc) | hc) | hc) | hc
  · exact appendInt_chars _ _ c hc
  · right
    simpa using hc
  · exact appendInt_chars _ _ c hc
  · right
    simpa using hc
  · exact appendInt_chars _ _ c hc

theorem makeEpisodeName_ok (index : Int) (item : Item) (enc : Enclosure) (d : Time)
    (he : item.enclosures[0]? = some enc) (hd : item.publishedParsed = some d) :
    ∃ ext, '.' ∉ ext.data ∧
      (stringsSplit enc.url '.')[(stringsSplit enc.url '.').length - 1]? = some ext ∧
      makeEpisodeName index item
        = .ok (d.formatDateOnly ++ "_episode" ++ strconvItoa index ++ "." ++ ext) := by
  obtain ⟨ext, hext, hdot⟩ := stringsSplit_last_exists enc.url
  refine ⟨ext, hdot, hext, ?_⟩
  simp only [makeEpisodeName, he, hd, hext]

theorem makeEpisodeName_inv (index : Int) (item : Item) (name : String)
    (h : makeEpisodeName index item = .ok name) :
    ∃ enc d ext, item.enclosures[0]? = some enc ∧ item.publishedParsed = some d ∧
      '.' ∉ ext.data ∧
      name = d.formatDateOnly ++ "_episode" ++ strconvItoa index ++ "." ++ ext := by
  cases he : item.enclosures[0]? with
  | none => simp [makeEpisodeName, he] at h
  | some enc =>
    cases hd : item.publishedParsed with
    | none => simp [makeEpisodeName, he, hd] at h
    | some d =>
      obtain ⟨ext, hdot, _, hok⟩ := makeEpisodeName_ok index item enc d he hd
      rw [hok] at h
      exact ⟨enc, d, ext, rfl, rfl, hdot, (Except.ok.inj h).symm⟩

theorem episodePath_ok (base : String) (total j : Nat) (item : Item) (enc : Enclosure) (d : Time)
    (he : item.enclosures[0]? = some enc) (hd : item.publishedParsed = some d) :
    ∃ ext, '.' ∉ ext.data ∧
      (stringsSplit enc.url '.')[(stringsSplit enc.url '.').length - 1]? = some ext ∧
      episodePath base total j item
        = .ok (base ++ "/" ++ (d.formatDateOnly ++ "_episode" ++
            strconvItoa ((total : Int) - (j : Int)) ++ "." ++ ext)) := by
  obtain ⟨ext, hdot, hext, hok⟩ := makeEpisodeName_ok ((total : Int) - (j : Int)) item enc d he hd
  exact ⟨ext, hdot, hext, by simp only [episodePath, hok]⟩

theorem episodePath_inv (base : String) (total j : Nat) (item : Item) (p : String)
    (h : episodePath base total j item = .ok p) :
    ∃ enc d ext, item.enclosures[0]? = some enc ∧ item.publishedParsed = some d ∧
      '.' ∉ ext.data ∧
      p = base ++ "/" ++ (d.formatDateOnly ++ "_episode" ++
            strconvItoa ((total : Int) - (j : Int)) ++ "." ++ ext) := by
  cases hm : makeEpisodeName ((total : Int) - (j : Int)) item with
  | error e => simp [episodePath, hm] at h
  | ok name =>
    obtain ⟨enc, d, ext, he, hd, hdot, hname⟩ := makeEpisodeName_inv _ _ _ hm
    simp only [episodePath, hm] at h
    exact ⟨enc, d, ext, he, hd, hdot, by rw [← Except.ok.inj h, hname]⟩

theorem isDigit_ne (c x : Char) (hx : x.isDigit = false) (hc : c.isDigit = true) : c ≠ x := by
  intro e
  rw [e, hx] at hc
  exact Bool.noConfusion hc

/-- A path determines the feed name and the episode number it was built from. -/
theorem path_inj (F F' : String) (d d' : Time) (n n' : Nat) (e e' : String)
    (he : '.' ∉ e.data) (he' : '.' ∉ e'.data)
    (h : "/podcasts/" ++ F ++ "/" ++ (d.formatDateOnly ++ "_episode" ++ toString n ++ "." ++ e)
      = "/podcasts/" ++ F' ++ "/" ++
          (d'.formatDateOnly ++ "_episode" ++ toString n' ++ "." ++ e')) :
    F = F' ∧ n = n' := by
  have shape : ∀ (G : String) (t : Time) (k : Nat) (x : String),
      ("/podcasts/" ++ G ++ "/" ++ (t.formatDateOnly ++ "_episode" ++ toString k ++ "." ++ x)).data
        = (("/podcasts/".data ++ G.data) ++ '/' ::
            (t.formatDateOnly.data ++ '_' :: ("episode".data ++ (toString k).data)))
          ++ '.' :: x.data := by
    intro G t k x
    simp only [String.data_append, List.append_assoc, List.cons_append, List.nil_append,
      List.singleton_append]
  have tail_no_slash : ∀ (t : Time) (k : Nat),
      '/' ∉ t.formatDateOnly.data ++ '_' :: ("episode".data ++ (toString k).data) := by
    intro t k hm
    rcases List.mem_append.1 hm with hm | hm
    · rcases formatDateOnly_chars t _ hm with hdg | hdg
      · exact isDigit_ne _ '/' rfl hdg rfl
      · exact absurd hdg (by decide)
    · rcases List.mem_cons.1 hm with hm | hm
      · exact absurd hm (by decide)
      · rcases List.mem_append.1 hm with hm | hm
        · revert hm
          decide
        · exact isDigit_ne _ '/' rfl (repr_isDigit k _ hm) rfl
  have date_no_us : ∀ t : Time, '_' ∉ t.formatDateOnly.data := by
    intro t hm
    rcases formatDateOnly_chars t _ hm with hdg | hdg
    · exact isDigit_ne _ '_' rfl hdg rfl
    · exact absurd hdg (by decide)
  have hdata := congrArg String.data h
  rw [shape, shape] at hdata
  obtain ⟨h1, _⟩ := split_last '.' _ _ _ _ he he' hdata
  obtain ⟨h2, h3⟩ := split_last '/' _ _ _ _ (tail_no_slash d n) (tail_no_slash d' n') h1
  obtain ⟨_, h4⟩ := split_first '_' _ _ _ _ (date_no_us d) (date_no_us d') h3
  refine ⟨?_, ?_⟩
  · exact String.ext (List.append_cancel_left h2)
  · exact repr_injective n n' (String.ext (List.append_cancel_left h4))

/-- Two registered paths are equal only for the same feed name and the same episode number. -/
theorem episodePath_inj (F F' : String) (total total' j j' : Nat) (item item' : Item)
    (p : String) (hj : j < total) (hj' : j' < total')
    (h : episodePath ("/podcasts/" ++ F) total j item = .ok p)
    (h' : episodePath ("/podcasts/" ++ F') total' j' item' = .ok p) :
    F = F' ∧ total - j = total' - j' := by
  obtain ⟨_, d, e, _, _, hdot, hp⟩ := episodePath_inv _ _ _ _ _ h
  obtain ⟨_, d', e', _, _, hdot', hp'⟩ := episodePath_inv _ _ _ _ _ h'
  rw [strconvItoa_sub _ _ hj.le] at hp
  rw [strconvItoa_sub _ _ hj'.le] at hp'
  exact path_inj F F' d d' _ _ e e' hdot hdot' (hp.symm.trans hp')

/-! ## The map `episodeUrlMap` -/

theorem EpisodeMap.get_filter_ne (k k' : String) : ∀ m : EpisodeMap,
    EpisodeMap.get (m.filter (fun e => decide (e.1 ≠ k))) k'
      = if k' = k then none else EpisodeMap.get m k'
  | [] => by simp [EpisodeMap.get]
  | (a, v) :: m => by
    have ih := EpisodeMap.get_filter_ne k k' m
    simp only [EpisodeMap.get] at ih ⊢
    by_cases ha : a = k
    · subst ha
      by_cases hk : k' = a
      · simp [List.filter_cons, hk] at ih ⊢
        exact ih
      · have hb : (k' == a) = false := by simpa using hk
        simp [List.filter_cons, List.lookup_cons, hb, hk] at ih ⊢
        exact ih
    · by_cases hk : k' = k
      · subst hk
        have hb : (k' == a) = false := by
          simpa using fun e => ha e.symm
        simp [List.filter_cons, List.lookup_cons, hb, ha] at ih ⊢
        exact ih
      · by_cases hka : k' = a
        · subst hka
          simp [List.filter_cons, List.lookup_cons, ha]
        · have hb : (k' == a) = false := by simpa using hka
          simp [List.filter_cons, List.lookup_cons, hb, ha, hk] at ih ⊢
          exact ih

theorem EpisodeMap.get_set (m : EpisodeMap) (k k' : String) (v : Item) :
    EpisodeMap.get (m.set k v) k' = if k' = k then some v else EpisodeMap.get m k' := by
  by_cases hk : k' = k
  · subst hk
    simp [EpisodeMap.get, EpisodeMap.set, List.lookup_cons]
  · have hb : (k' == k) = false := by simpa using hk
    have := EpisodeMap.get_filter_ne k k' m
    simp only [EpisodeMap.get, hk, if_false] at this
    simp only [EpisodeMap.get, EpisodeMap.set, List.lookup_cons, hb, hk, if_false]
    exact this

theorem EpisodeMap.mem_keys_iff (k : String) : ∀ m : EpisodeMap,
    k ∈ EpisodeMap.keys m ↔ ∃ v, EpisodeMap.get m k = some v
  | [] => by simp [EpisodeMap.keys, EpisodeMap.get]
  | (a, v) :: m => by
    have ih := EpisodeMap.mem_keys_iff k m
    simp only [EpisodeMap.keys, EpisodeMap.get] at ih ⊢
    by_cases hk : k = a
    · subst hk
      simp [List.lookup_cons]
    · have hb : (k == a) = false := by simpa using hk
      simp only [List.map_cons, List.mem_cons, hk, false_or, List.lookup_cons, hb]
      exact ih

theorem EpisodeMap.length_set_fresh (m : EpisodeMap) (k : String) (v : Item)
    (h : EpisodeMap.get m k = none) : (m.set k v).length = m.length + 1 := by
  have hall : ∀ e ∈ m, decide (e.1 ≠ k) = true := by
    intro e he
    have hne : e.1 ≠ k := by
      intro e1
      have hk : k ∈ EpisodeMap.keys m := by
        rw [← e1]
        exact List.mem_map_of_mem Prod.fst he
      obtain ⟨w, hw⟩ := (EpisodeMap.mem_keys_iff k m).1 hk
      rw [h] at hw
      exact Option.noConfusion hw
    simpa using hne
  simp only [EpisodeMap.set, List.length_cons, List.filter_eq_self.2 hall]

/-! ## The inner loop -/

theorem buildItems_cons_inv {σ : Type} (fsys : FileSystem σ) (base : String) (total j : Nat)
    (item : Item) (rest : List Item) (st st' : BuildState σ)
    (h : buildItems fsys base total j (item :: rest) st = .ok st') :
    ∃ p fs1, episodePath base total j item = .ok p ∧ fsys.openFile st.fs p = .ok fs1 ∧
      buildItems fsys base total (j + 1) rest
        { fs := fs1, episodeUrlMap := st.episodeUrlMap.set p item } = .ok st' := by
  cases hp : episodePath base total j item with
  | error e => simp [buildItems, hp] at h
  | ok p =>
    cases ho : fsys.openFile st.fs p with
    | error e => simp [buildItems, hp, ho] at h
    | ok fs1 =>
      simp only [buildItems, hp, ho] at h
      exact ⟨p, fs1, rfl, ho, h⟩

/-- A path that no item of the run produces keeps its entry. -/
theorem buildItems_get_other {σ : Type} (fsys : FileSystem σ) (base : String) (total : Nat)
    (p : String) : ∀ (items : List Item) (j : Nat) (st st' : BuildState σ),
    buildItems fsys base total j items st = .ok st' →
    (∀ k item, items[k]? = some item → episodePath base total (j + k) item ≠ .ok p) →
    st'.episodeUrlMap.get p = st.episodeUrlMap.get p
  | [], j, st, st', h, _ => by
    simp only [buildItems] at h
    rw [← Except.ok.inj h]
  | item :: rest, j, st, st', h, hne => by
    obtain ⟨q, fs1, hq, _, hrest⟩ := buildItems_cons_inv fsys base total j item rest st st' h
    have ih := buildItems_get_other fsys base total p rest (j + 1) _ st' hrest (by
      intro k it hk
      have := hne (k + 1) it (by simpa using hk)
      rwa [show j + (k + 1) = j + 1 + k by omega] at this)
    rw [ih]
    simp only [EpisodeMap.get_set]
    have hpq : p ≠ q := by
      intro e
      have := hne 0 item (by simp)
      rw [Nat.add_zero, hq, e] at this
      exact this rfl
    simp [hpq]

/-- Every item of a completed run has a path, and the path is a key of the map. -/
theorem buildItems_mem {σ : Type} (fsys : FileSystem σ) (base : String) (total : Nat) :
    ∀ (items : List Item) (j : Nat) (st st' : BuildState σ),
    buildItems fsys base total j items st = .ok st' →
    (∀ q, q ∈ st.episodeUrlMap.keys → q ∈ st'.episodeUrlMap.keys) ∧
    ∀ k item, items[k]? = some item →
      ∃ p, episodePath base total (j + k) item = .ok p ∧ p ∈ st'.episodeUrlMap.keys
  | [], j, st, st', h => by
    simp only [buildItems] at h
    rw [← Except.ok.inj h]
    exact ⟨fun q hq => hq, by simp⟩
  | item :: rest, j, st, st', h => by
    obtain ⟨q, fs1, hq, _, hrest⟩ := buildItems_cons_inv fsys base total j item rest st st' h
    obtain ⟨ih1, ih2⟩ := buildItems_mem fsys base total rest (j + 1) _ st' hrest
    have hset : ∀ x, x ∈ st.episodeUrlMap.keys ∨ x = q →
        x ∈ EpisodeMap.keys (st.episodeUrlMap.set q item) := by
      intro x hx
      rw [EpisodeMap.mem_keys_iff, EpisodeMap.get_set]
      by_cases e : x = q
      · exact ⟨item, by simp [e]⟩
      · rcases hx with hx | hx
        · obtain ⟨v, hv⟩ := (EpisodeMap.mem_keys_iff x _).1 hx
          exact ⟨v, by simp [e, hv]⟩
        · exact absurd hx e
    refine ⟨fun x hx => ih1 x (hset x (Or.inl hx)), ?_⟩
    intro k it hk
    cases k with
    | zero =>
      simp only [List.getElem?_cons_zero, Option.some.injEq] at hk
      subst hk
      exact ⟨q, by simpa using hq, ih1 q (hset q (Or.inr rfl))⟩
    | succ k =>
      obtain ⟨p, hp, hmem⟩ := ih2 k it (by simpa using hk)
      exact ⟨p, by rwa [show j + (k + 1) = j + 1 + k by omega], hmem⟩

/-- Inside a feed directory two positions never produce the same path. -/
theorem episodePath_index_inj (F : String) (total j j' : Nat) (item item' : Item) (p : String)
    (hj : j < total) (hj' : j' < total)
    (h : episodePath ("/podcasts/" ++ F) total j item = .ok p)
    (h' : episodePath ("/podcasts/" ++ F) total j' item' = .ok p) : j = j' := by
  have := (episodePath_inj F F total total j j' item item' p hj hj' h h').2
  omega

/-- After a completed run every item is found under its own path. -/
theorem buildItems_get_self {σ : Type} (fsys : FileSystem σ) (F : String) (total : Nat) :
    ∀ (items : List Item) (j : Nat) (st st' : BuildState σ),
    j + items.length ≤ total →
    buildItems fsys ("/podcasts/" ++ F) total j items st = .ok st' →
    ∀ k item, items[k]? = some item →
      ∃ p, episodePath ("/podcasts/" ++ F) total (j + k) item = .ok p ∧
        st'.episodeUrlMap.get p = some item
  | [], j, st, st', _, _ => by simp
  | item :: rest, j, st, st', hlen, h => by
    obtain ⟨q, fs1, hq, _, hrest⟩ := buildItems_cons_inv fsys _ total j item rest st st' h
    simp only [List.length_cons] at hlen
    intro k it hk
    cases k with
    | zero =>
      simp only [List.getElem?_cons_zero, Option.some.injEq] at hk
      subst hk
      refine ⟨q, by simpa using hq, ?_⟩
      rw [buildItems_get_other fsys _ total q rest (j + 1) _ st' hrest]
      · simp [EpisodeMap.get_set]
      · intro k it hk hbad
        have hklt : k < rest.length := (List.getElem?_eq_some_iff.1 hk).1
        have := episodePath_index_inj F total j (j + 1 + k) item it q (by omega) (by omega) hq hbad
        omega
    | succ k =>
      obtain ⟨p, hp, hget⟩ := buildItems_get_self fsys F total rest (j + 1) _ st' (by omega)
        hrest k it (by simpa using hk)
      exact ⟨p, by rwa [show j + (k + 1) = j + 1 + k by omega], hget⟩

/-- A completed run over fresh paths adds one entry per item. -/
theorem buildItems_length {σ : Type} (fsys : FileSystem σ) (F : String) (total : Nat) :
    ∀ (items : List Item) (j : Nat) (st st' : BuildState σ),
    j + items.length ≤ total →
    buildItems fsys ("/podcasts/" ++ F) total j items st = .ok st' →
    (∀ k item p, items[k]? = some item →
      episodePath ("/podcasts/" ++ F) total (j + k) item = .ok p →
      st.episodeUrlMap.get p = none) →
    st'.episodeUrlMap.length = st.episodeUrlMap.length + items.length
  | [], j, st, st', _, h, _ => by
    simp only [buildItems] at h
    rw [← Except.ok.inj h]
    simp
  | item :: rest, j, st, st', hlen, h, hfresh => by
    obtain ⟨q, fs1, hq, _, hrest⟩ := buildItems_cons_inv fsys _ total j item rest st st' h
    simp only [List.length_cons] at hlen
    have ih := buildItems_length fsys F total rest (j + 1) _ st' (by omega) hrest (by
      intro k it p hk hp
      have hklt : k < rest.length := (List.getElem?_eq_some_iff.1 hk).1
      have hpq : p ≠ q := by
        intro e
        rw [e] at hp
        have := episodePath_index_inj F total j (j + 1 + k) item it q (by omega) (by omega) hq hp
        omega
      simp only [EpisodeMap.get_set, hpq, if_false]
      exact hfresh (k + 1) it p (by simpa using hk)
        (by rwa [show j + (k + 1) = j + 1 + k by omega]))
    rw [ih]
    simp only [List.length_cons]
    rw [EpisodeMap.length_set_fresh _ _ _ (hfresh 0 item q (by simp) (by simpa using hq))]
    omega

/-! ## The outer loop -/

theorem buildFeeds_cons_inv {σ : Type} (fsys : FileSystem σ) (feeds : List Feed) (i : Nat)
    (fc : FeedConfig) (rest : List FeedConfig) (st st' : BuildState σ)
    (h : buildFeeds fsys feeds i (fc :: rest) st = .ok st') :
    ∃ feed st1, feeds[i]? = some feed ∧
      buildItems fsys ("/podcasts/" ++ fc.name) feed.items.length 0 feed.items
        { fs := fsys.mkdir st.fs ("/podcasts/" ++ fc.name),
          episodeUrlMap := st.episodeUrlMap } = .ok st1 ∧
      buildFeeds fsys feeds (i + 1) rest st1 = .ok st' := by
  cases hf : feeds[i]? with
  | none => simp [buildFeeds, hf] at h
  | some feed =>
    cases hb : buildItems fsys ("/podcasts/" ++ fc.name) feed.items.length 0 feed.items
        { fs := fsys.mkdir st.fs ("/podcasts/" ++ fc.name),
          episodeUrlMap := st.episodeUrlMap } with
    | error e => simp [buildFeeds, hf, hb] at h
    | ok st1 =>
      simp only [buildFeeds, hf, hb] at h
      exact ⟨feed, st1, rfl, hb, h⟩

/-- A completed build found a fetched feed at the position of every configured feed. -/
theorem buildFeeds_length {σ : Type} (fsys : FileSystem σ) (feeds : List Feed) :
    ∀ (cfgs : List FeedConfig) (i : Nat) (st st' : BuildState σ),
    buildFeeds fsys feeds i cfgs st = .ok st' → cfgs = [] ∨ i + cfgs.length ≤ feeds.length
  | [], _, _, _, _ => Or.inl rfl
  | fc :: rest, i, st, st', h => by
    obtain ⟨feed, st1, hf, _, hrest⟩ := buildFeeds_cons_inv fsys feeds i fc rest st st' h
    have hi : i < feeds.length := (List.getElem?_eq_some_iff.1 hf).1
    right
    rcases buildFeeds_length fsys feeds rest (i + 1) st1 st' hrest with e | e
    · simp [e]
      omega
    · simp only [List.length_cons]
      omega

theorem buildFeeds_get_other {σ : Type} (fsys : FileSystem σ) (feeds : List Feed)
    (p : String) : ∀ (cfgs : List FeedConfig) (i : Nat) (st st' : BuildState σ),
    buildFeeds fsys feeds i cfgs st = .ok st' →
    (∀ k fc feed j item, cfgs[k]? = some fc → feeds[i + k]? = some feed →
      feed.items[j]? = some item →
      episodePath ("/podcasts/" ++ fc.name) feed.items.length j item ≠ .ok p) →
    st'.episodeUrlMap.get p = st.episodeUrlMap.get p
  | [], i, st, st', h, _ => by
    simp only [buildFeeds] at h
    rw [← Except.ok.inj h]
  | fc :: rest, i, st, st', h, hne => by
    obtain ⟨feed, st1, hf, hitems, hrest⟩ := buildFeeds_cons_inv fsys feeds i fc rest st st' h
    rw [buildFeeds_get_other fsys feeds p rest (i + 1) st1 st' hrest (by
      intro k fc' feed' j item hk hf' hj
      exact hne (k + 1) fc' feed' j item (by simpa using hk)
        (by rwa [show i + (k + 1) = i + 1 + k by omega]) hj)]
    rw [buildItems_get_other fsys _ _ p feed.items 0 _ st1 hitems (by
      intro k item hk
      rw [Nat.zero_add]
      exact hne 0 fc feed k item (by simp) (by simpa using hf) hk)]

theorem buildFeeds_mem {σ : Type} (fsys : FileSystem σ) (feeds : List Feed) :
    ∀ (cfgs : List FeedConfig) (i : Nat) (st st' : BuildState σ),
    buildFeeds fsys feeds i cfgs st = .ok st' →
    (∀ q, q ∈ st.episodeUrlMap.keys → q ∈ st'.episodeUrlMap.keys) ∧
    ∀ k fc feed j item, cfgs[k]? = some fc → feeds[i + k]? = some feed →
      feed.items[j]? = some item →
      ∃ p, episodePath ("/podcasts/" ++ fc.name) feed.items.length j item = .ok p ∧
        p ∈ st'.episodeUrlMap.keys
  | [], i, st, st', h => by
    simp only [buildFeeds] at h
    rw [← Except.ok.inj h]
    exact ⟨fun q hq => hq, by simp⟩
  | fc :: rest, i, st, st', h => by
    obtain ⟨feed, st1, hf, hitems, hrest⟩ := buildFeeds_cons_inv fsys feeds i fc rest st st' h
    obtain ⟨ih1, ih2⟩ := buildFeeds_mem fsys feeds rest (i + 1) st1 st' hrest
    obtain ⟨hm1, hm2⟩ := buildItems_mem fsys _ _ feed.items 0 _ st1 hitems
    refine ⟨fun q hq => ih1 q (hm1 q hq), ?_⟩
    intro k fc' feed' j item hk hf' hj
    cases k with
    | zero =>
      simp only [List.getElem?_cons_zero, Option.some.injEq] at hk
      subst hk
      rw [Nat.add_zero, hf] at hf'
      rw [← Option.some.inj hf'] at hj ⊢
      obtain ⟨p, hp, hmem⟩ := hm2 j item hj
      rw [Nat.zero_add] at hp
      exact ⟨p, hp, ih1 p hmem⟩
    | succ k =>
      exact ih2 k fc' feed' j item (by simpa using hk)
        (by rwa [show i + (k + 1) = i + 1 + k by omega] at hf') hj

/-- With pairwise distinct feed names, a completed build maps every path to its own item. -/
theorem buildFeeds_get_self {σ : Type} (fsys : FileSystem σ) (feeds : List Feed) :
    ∀ (cfgs : List FeedConfig) (i : Nat) (st st' : BuildState σ),
    (cfgs.map FeedConfig.name).Nodup →
    buildFeeds fsys feeds i cfgs st = .ok st' →
    ∀ k fc feed j item, cfgs[k]? = some fc → feeds[i + k]? = some feed →
      feed.items[j]? = some item →
      ∃ p, episodePath ("/podcasts/" ++ fc.name) feed.items.length j item = .ok p ∧
        st'.episodeUrlMap.get p = some item
  | [], i, st, st', _, _ => by simp
  | fc :: rest, i, st, st', hnd, h => by
    obtain ⟨feed, st1, hf, hitems, hrest⟩ := buildFeeds_cons_inv fsys feeds i fc rest st st' h
    simp only [List.map_cons, List.nodup_cons] at hnd
    intro k fc' feed' j item hk hf' hj
    cases k with
    | zero =>
      simp only [List.getElem?_cons_zero, Option.some.injEq] at hk
      subst hk
      rw [Nat.add_zero, hf] at hf'
      rw [← Option.some.inj hf'] at hj ⊢
      obtain ⟨p, hp, hget⟩ := buildItems_get_self fsys fc.name _ feed.items 0 _ st1
        (by omega) hitems j item hj
      rw [Nat.zero_add] at hp
      refine ⟨p, hp, ?_⟩
      rw [buildFeeds_get_other fsys feeds p rest (i + 1) st1 st' hrest, hget]
      intro k fc2 feed2 j2 item2 hk2 _ hj2 hbad
      have hjlt : j < feed.items.length := (List.getElem?_eq_some_iff.1 hj).1
      have hj2lt : j2 < feed2.items.length := (List.getElem?_eq_some_iff.1 hj2).1
      have hname := (episodePath_inj fc.name fc2.name _ _ j j2 item item2 p hjlt hj2lt hp hbad).1
      apply hnd.1
      rw [hname]
      exact List.mem_map_of_mem FeedConfig.name (List.getElem?_mem hk2)
    | succ k =>
      exact buildFeeds_get_self fsys feeds rest (i + 1) st1 st' hnd.2 hrest k fc' feed' j item
        (by simpa using hk) (by rwa [show i + (k + 1) = i + 1 + k by omega] at hf') hj

/-! ## `fetchFeeds` -/

theorem fetchFeedsLoop_bounds (parseURL : String → Except String Feed) :
    ∀ (cfgs : List FeedConfig) (acc : List Feed),
    acc.length ≤ (fetchFeedsLoop parseURL cfgs acc).length ∧
    (fetchFeedsLoop parseURL cfgs acc).length ≤ acc.length + cfgs.length ∧
    ∀ n, n < acc.length → (fetchFeedsLoop parseURL cfgs acc)[n]? = acc[n]?
  | [], acc => by simp [fetchFeedsLoop]
  | fc :: rest, acc => by
    cases hp : parseURL fc.url with
    | error e =>
      obtain ⟨h1, h2, h3⟩ := fetchFeedsLoop_bounds parseURL rest acc
      simp only [fetchFeedsLoop, hp, List.length_cons]
      exact ⟨h1, by omega, h3⟩
    | ok feed =>
      obtain ⟨h1, h2, h3⟩ := fetchFeedsLoop_bounds parseURL rest (acc ++ [feed])
      simp only [List.length_append, List.length_singleton] at h1 h2 h3
      simp only [fetchFeedsLoop, hp, List.length_cons]
      refine ⟨by omega, by omega, ?_⟩
      intro n hn
      rw [h3 n (by omega), List.getElem?_append_left hn]

/-- When no fetch was skipped, the fetched feeds line up with the configured feeds. -/
theorem fetchFeedsLoop_aligned (parseURL : String → Except String Feed) :
    ∀ (cfgs : List FeedConfig) (acc : List Feed),
    acc.length + cfgs.length ≤ (fetchFeedsLoop parseURL cfgs acc).length →
    ∀ k fc, cfgs[k]? = some fc →
      ∃ feed, parseURL fc.url = .ok feed ∧
        (fetchFeedsLoop parseURL cfgs acc)[acc.length + k]? = some feed
  | [], acc, _ => by simp
  | fc0 :: rest, acc, hlen => by
    cases hp : parseURL fc0.url with
    | error e =>
      have := (fetchFeedsLoop_bounds parseURL rest acc).2.1
      simp only [fetchFeedsLoop, hp, List.length_cons] at hlen
      omega
    | ok feed =>
      simp only [fetchFeedsLoop, hp, List.length_cons] at hlen ⊢
      intro k fc hk
      cases k with
      | zero =>
        simp only [List.getElem?_cons_zero, Option.some.injEq] at hk
        subst hk
        refine ⟨feed, hp, ?_⟩
        rw [Nat.add_zero, (fetchFeedsLoop_bounds parseURL rest (acc ++ [feed])).2.2 acc.length
          (by simp)]
        simp
      | succ k =>
        have ih := fetchFeedsLoop_aligned parseURL rest (acc ++ [feed])
          (by simp only [List.length_append, List.length_singleton]; omega) k fc
          (by simpa using hk)
        simp only [List.length_append, List.length_singleton] at ih
        rwa [show acc.length + (k + 1) = acc.length + 1 + k by omega]

/-- A skipped fetch leaves fewer fetched feeds than configured feeds. -/
theorem fetchFeedsLoop_short (parseURL : String → Except String Feed) :
    ∀ (cfgs : List FeedConfig) (acc : List Feed),
    (∃ fc ∈ cfgs, ∃ e, parseURL fc.url = .error e) →
    (fetchFeedsLoop parseURL cfgs acc).length < acc.length + cfgs.length
  | [], acc, h => by simp at h
  | fc0 :: rest, acc, h => by
    cases hp : parseURL fc0.url with
    | error e =>
      have := (fetchFeedsLoop_bounds parseURL rest acc).2.1
      simp only [fetchFeedsLoop, hp, List.length_cons]
      omega
    | ok feed =>
      obtain ⟨fc, hfc, e, he⟩ := h
      rcases List.mem_cons.1 hfc with rfl | hfc
      · rw [hp] at he
        exact Except.noConfusion he
      · have := fetchFeedsLoop_short parseURL rest (acc ++ [feed]) ⟨fc, hfc, e, he⟩
        simp only [List.length_append, List.length_singleton] at this
        simp only [fetchFeedsLoop, hp, List.length_cons]
        omega

/-- A completed startup fetched every configured feed, in configuration order. -/
theorem mainBuild_aligned {σ : Type} (fsys : FileSystem σ)
    (parseURL : String → Except String Feed) (config : Config) (st : BuildState σ)
    (h : mainBuild fsys parseURL config = .ok st) :
    ∀ k fc, config.feeds[k]? = some fc →
      ∃ feed, parseURL fc.url = .ok feed ∧ (fetchFeeds parseURL config)[0 + k]? = some feed := by
  intro k fc hk
  have hlen := buildFeeds_length fsys (fetchFeeds parseURL config) config.feeds 0 _ st h
  have hne : config.feeds ≠ [] := by
    intro e
    rw [e] at hk
    simp at hk
  have hlen2 : ([] : List Feed).length + config.feeds.length
      ≤ (fetchFeedsLoop parseURL config.feeds []).length := by
    rcases hlen with e | e
    · exact absurd e hne
    · simpa [fetchFeeds] using e
  simpa [fetchFeeds] using fetchFeedsLoop_aligned parseURL config.feeds [] hlen2 k fc hk

/-- Every entry of the map was produced by `episodePath` for the item it holds. -/
theorem buildItems_values {σ : Type} (fsys : FileSystem σ) (F : String) (total : Nat) :
    ∀ (items : List Item) (j : Nat) (st st' : BuildState σ),
    buildItems fsys ("/podcasts/" ++ F) total j items st = .ok st' →
    (∀ p v, st.episodeUrlMap.get p = some v →
      ∃ G n k, episodePath ("/podcasts/" ++ G) n k v = .ok p) →
    ∀ p v, st'.episodeUrlMap.get p = some v →
      ∃ G n k, episodePath ("/podcasts/" ++ G) n k v = .ok p
  | [], j, st, st', h, hinv => by
    simp only [buildItems] at h
    rw [← Except.ok.inj h]
    exact hinv
  | item :: rest, j, st, st', h, hinv => by
    obtain ⟨q, fs1, hq, _, hrest⟩ := buildItems_cons_inv fsys _ total j item rest st st' h
    apply buildItems_values fsys F total rest (j + 1) _ st' hrest
    intro p v hpv
    simp only [EpisodeMap.get_set] at hpv
    by_cases e : p = q
    · simp only [e, if_true, Option.some.injEq] at hpv
      subst hpv
      exact ⟨F, total, j, by rw [e]; exact hq⟩
    · simp only [e, if_false] at hpv
      exact hinv p v hpv

theorem buildFeeds_values {σ : Type} (fsys : FileSystem σ) (feeds : List Feed) :
    ∀ (cfgs : List FeedConfig) (i : Nat) (st st' : BuildState σ),
    buildFeeds fsys feeds i cfgs st = .ok st' →
    (∀ p v, st.episodeUrlMap.get p = some v →
      ∃ G n k, episodePath ("/podcasts/" ++ G) n k v = .ok p) →
    ∀ p v, st'.episodeUrlMap.get p = some v →
      ∃ G n k, episodePath ("/podcasts/" ++ G) n k v = .ok p
  | [], i, st, st', h, hinv => by
    simp only [buildFeeds] at h
    rw [← Except.ok.inj h]
    exact hinv
  | fc :: rest, i, st, st', h, hinv => by
    obtain ⟨feed, st1, _, hitems, hrest⟩ := buildFeeds_cons_inv fsys feeds i fc rest st st' h
    exact buildFeeds_values fsys feeds rest (i + 1) st1 st' hrest
      (buildItems_values fsys fc.name _ feed.items 0 _ st1 hitems hinv)

/-- Every key of the built map starts with `/podcasts/`, and every item it holds has an
enclosure. -/
theorem mainBuild_entry_shape {σ : Type} (fsys : FileSystem σ)
    (parseURL : String → Except String Feed) (config : Config) (st : BuildState σ)
    (h : mainBuild fsys parseURL config = .ok st) (p : String) (v : Item)
    (hpv : st.episodeUrlMap.get p = some v) :
    stringsHasPrefix p "/podcasts/" = true ∧ ∃ enc, v.enclosures[0]? = some enc := by
  obtain ⟨G, n, k, hp⟩ := buildFeeds_values fsys _ config.feeds 0 _ st h
    (by intro p v hpv; simp [EpisodeMap.get] at hpv) p v hpv
  obtain ⟨enc, d, ext, he, _, _, hshape⟩ := episodePath_inv _ _ _ _ _ hp
  refine ⟨?_, enc, he⟩
  rw [hshape]
  simp only [stringsHasPrefix, String.data_append, List.append_assoc]
  exact List.isPrefixOf_iff_prefix.2 (List.prefix_append _ _)

/-! ## Runs that cannot complete -/

/-- When a fetch fails the build never completes: `feeds` is shorter than `config.Feeds`. -/
theorem mainBuild_fetch_failure {σ : Type} (fsys : FileSystem σ)
    (parseURL : String → Except String Feed) (config : Config)
    (hfail : ∃ fc ∈ config.feeds, ∃ e, parseURL fc.url = .error e) (st : BuildState σ) :
    mainBuild fsys parseURL config ≠ .ok st := by
  intro h
  have hshort := fetchFeedsLoop_short parseURL config.feeds [] hfail
  rcases buildFeeds_length fsys (fetchFeeds parseURL config) config.feeds 0 _ st h with e | e
  · obtain ⟨fc, hfc, _⟩ := hfail
    rw [e] at hfc
    simp at hfc
  · simp only [fetchFeeds, List.length_nil, Nat.zero_add] at hshort e
    omega

/-- When a fetched feed holds an item without enclosure the build never completes. -/
theorem mainBuild_no_enclosure {σ : Type} (fsys : FileSystem σ)
    (parseURL : String → Except String Feed) (config : Config)
    (i j : Nat) (fc : FeedConfig) (feed : Feed) (item : Item)
    (hfc : config.feeds[i]? = some fc) (hfeed : parseURL fc.url = .ok feed)
    (hitem : feed.items[j]? = some item) (hnone : item.enclosures = [])
    (st : BuildState σ) : mainBuild fsys parseURL config ≠ .ok st := by
  intro h
  obtain ⟨feed', hfeed', hidx⟩ := mainBuild_aligned fsys parseURL config st h i fc hfc
  rw [hfeed] at hfeed'
  rw [← Except.ok.inj hfeed'] at hidx
  obtain ⟨p, hp, _⟩ := (buildFeeds_mem fsys _ config.feeds 0 _ st h).2 i fc feed j item hfc hidx
    hitem
  obtain ⟨enc, _, _, he, _⟩ := episodePath_inv _ _ _ _ _ hp
  rw [hnone] at he
  simp at he

/-- A feed of well-formed items is registered completely by a file system that accepts every
create. -/
theorem buildItems_complete {σ : Type} (fsys : FileSystem σ) (base : String) (total : Nat)
    (haccept : ∀ s p, ∃ s', fsys.openFile s p = .ok s') :
    ∀ (items : List Item) (j : Nat) (st : BuildState σ),
    (∀ item ∈ items, item.enclosures ≠ [] ∧ item.publishedParsed ≠ none) →
    ∃ st', buildItems fsys base total j items st = .ok st'
  | [], j, st, _ => ⟨st, rfl⟩
  | item :: rest, j, st, hwf => by
    obtain ⟨henc, hdate⟩ := hwf item (List.mem_cons_self _ _)
    obtain ⟨enc, he⟩ : ∃ enc, item.enclosures[0]? = some enc := by
      cases hl : item.enclosures with
      | nil => exact absurd hl henc
      | cons a l => exact ⟨a, by simp⟩
    obtain ⟨d, hd⟩ := Option.ne_none_iff_exists'.1 hdate
    obtain ⟨ext, _, _, hp⟩ := episodePath_ok base total j item enc d he hd
    obtain ⟨fs1, hfs⟩ := haccept st.fs
      (base ++ "/" ++ (d.formatDateOnly ++ "_episode" ++
        strconvItoa ((total : Int) - (j : Int)) ++ "." ++ ext))
    obtain ⟨st', hst⟩ := buildItems_complete fsys base total haccept rest (j + 1)
      { fs := fs1, episodeUrlMap := st.episodeUrlMap.set
          (base ++ "/" ++ (d.formatDateOnly ++ "_episode" ++
            strconvItoa ((total : Int) - (j : Int)) ++ "." ++ ext)) item }
      (fun it hit => hwf it (List.mem_cons_of_mem _ hit))
    exact ⟨st', by simp only [buildItems, hp, hfs, hst]⟩

/-! ## The request handler -/

/-- Requests that are not a GET under `/podcasts/` go to the WebDAV handler. -/
theorem mainHandler_delegates (m : EpisodeMap) (httpGet : String → Except String UpstreamResponse)
    (r : Request) (h : r.method ≠ "GET" ∨ stringsHasPrefix r.urlPath "/podcasts/" = false) :
    mainHandler m httpGet r = .ok [Action.serveHTTP] := by
  unfold mainHandler
  rcases h with h | h
  · simp [h]
  · simp [h]

/-- A GET under `/podcasts/` of a path that is not in the map returns without any action. -/
theorem mainHandler_unmapped (m : EpisodeMap) (httpGet : String → Except String UpstreamResponse)
    (r : Request) (hget : r.method = "GET")
    (hpre : stringsHasPrefix r.urlPath "/podcasts/" = true) (hnone : m.get r.urlPath = none) :
    mainHandler m httpGet r = .ok [] := by
  simp [mainHandler, hget, hpre, hnone]

/-! ## Paths in the in-memory file system -/

theorem splitChars_prepend (sep : Char) (s : List Char) : ∀ X : List Char, sep ∉ X →
    ∃ hd tl, splitChars sep s = hd :: tl ∧ splitChars sep (X ++ s) = (X ++ hd) :: tl
  | [], _ => by
    cases hs : splitChars sep s with
    | nil => exact absurd hs (splitChars_ne_nil sep s)
    | cons hd tl => exact ⟨hd, tl, rfl, by simp [hs]⟩
  | c :: X, h => by
    have hc : ¬ c = sep := fun e => h (by simp [e])
    obtain ⟨hd, tl, hs, hX⟩ := splitChars_prepend sep s X (fun m => h (List.mem_cons_of_mem _ m))
    refine ⟨hd, tl, hs, ?_⟩
    have e : splitChars sep (c :: X ++ s)
        = (match splitChars sep (X ++ s) with
          | [] => [[c]]
          | p :: ps => (c :: p) :: ps) := by
      simp only [List.cons_append, splitChars, hc, if_false]
      rfl
    rw [e, hX]
    rfl

theorem mem_of_mem_splitChars (sep : Char) : ∀ (s seg : List Char),
    seg ∈ splitChars sep s → ∀ c ∈ seg, c ∈ s
  | [], seg, h, c, hc => by
    simp only [splitChars, List.mem_singleton] at h
    rw [h] at hc
    exact hc
  | x :: xs, seg, h, c, hc => by
    have ih := mem_of_mem_splitChars sep xs
    by_cases hx : x = sep
    · simp only [splitChars, hx, if_true, List.mem_cons] at h
      rcases h with rfl | h
      · simp at hc
      · exact List.mem_cons_of_mem _ (ih seg h c hc)
    · cases hs : splitChars sep xs with
      | nil => exact absurd hs (splitChars_ne_nil sep xs)
      | cons p ps =>
        simp only [splitChars, hx, if_false, hs, List.mem_cons] at h
        rcases h with rfl | h
        · rcases List.mem_cons.1 hc with e | hc
          · simp [e]
          · exact List.mem_cons_of_mem _ (ih p (by simp [hs]) c hc)
        · exact List.mem_cons_of_mem _ (ih seg (by simp [hs, h]) c hc)

/-- Elements without a dot are kept or dropped by `path.Clean`, they remove nothing. -/
theorem foldl_cleanStep_plain : ∀ (L : List String) (S : List String),
    (∀ s ∈ L, '.' ∉ s.data) → ∃ more, L.foldl cleanStep S = S ++ more
  | [], S, _ => ⟨[], by simp⟩
  | s :: L, S, h => by
    have hs : '.' ∉ s.data := h s (List.mem_cons_self _ _)
    have h1 : s ≠ "." := by
      intro e
      rw [e] at hs
      exact hs (by decide)
    have h2 : s ≠ ".." := by
      intro e
      rw [e] at hs
      exact hs (by decide)
    have hstep : ∃ m0, cleanStep S s = S ++ m0 := by
      by_cases h0 : s = ""
      · exact ⟨[], by simp [cleanStep, h0]⟩
      · exact ⟨[s], by simp [cleanStep, h0, h1, h2]⟩
    obtain ⟨m0, hm0⟩ := hstep
    obtain ⟨more, hmore⟩ := foldl_cleanStep_plain L (S ++ m0)
      (fun t ht => h t (List.mem_cons_of_mem _ ht))
    exact ⟨m0 ++ more, by rw [List.foldl_cons, hm0, hmore, List.append_assoc]⟩

/-- The node of an episode path: the node of the feed directory, then the name up to the first
slash of the extension, then what the extension holds after that slash. -/
theorem memPath_episode (base T ext : String) (hslash : '/' ∉ T.data) (hus : '_' ∈ T.data)
    (hext : '.' ∉ ext.data) :
    ∃ hd more, '.' ∉ hd ∧
      memPath (base ++ "/" ++ (T ++ "." ++ ext))
        = memPath base ++ [String.mk (T.data ++ '.' :: hd)] ++ more := by
  have hX : '/' ∉ T.data ++ ['.'] := by
    intro hm
    rcases List.mem_append.1 hm with hm | hm
    · exact hslash hm
    · exact absurd hm (by decide)
  obtain ⟨hd, tl, hsplit, hpre⟩ := splitChars_prepend '/' ext.data (T.data ++ ['.']) hX
  have hdata : (base ++ "/" ++ (T ++ "." ++ ext)).data
      = base.data ++ '/' :: ((T.data ++ ['.']) ++ ext.data) := by
    simp only [String.data_append, List.append_assoc, List.cons_append, List.nil_append,
      List.singleton_append]
  simp only [List.append_assoc, List.singleton_append] at hpre hdata
  have hsegs : ∀ seg ∈ hd :: tl, '.' ∉ seg := by
    intro seg hseg hdot
    rw [← hsplit] at hseg
    exact hext (mem_of_mem_splitChars '/' ext.data seg hseg '.' hdot)
  have hfirst : cleanStep (memPath base) (String.mk (T.data ++ '.' :: hd))
      = memPath base ++ [String.mk (T.data ++ '.' :: hd)] := by
    have hmem : '_' ∈ (String.mk (T.data ++ '.' :: hd)).data :=
      List.mem_append_left _ hus
    have h0 : String.mk (T.data ++ '.' :: hd) ≠ "" := by
      intro e
      rw [e] at hmem
      exact absurd hmem (by decide)
    have h1 : String.mk (T.data ++ '.' :: hd) ≠ "." := by
      intro e
      rw [e] at hmem
      exact absurd hmem (by decide)
    have h2 : String.mk (T.data ++ '.' :: hd) ≠ ".." := by
      intro e
      rw [e] at hmem
      exact absurd hmem (by decide)
    simp [cleanStep, h0, h1, h2]
  obtain ⟨more, hmore⟩ := foldl_cleanStep_plain (tl.map String.mk)
    (memPath base ++ [String.mk (T.data ++ '.' :: hd)]) (by
      intro s hs
      obtain ⟨seg, hseg, rfl⟩ := List.mem_map.1 hs
      exact hsegs seg (List.mem_cons_of_mem _ hseg))
  refine ⟨hd, more, hsegs hd (List.mem_cons_self _ _), ?_⟩
  have hall : stringsSplit (base ++ "/" ++ (T ++ "." ++ ext)) '/'
      = stringsSplit base '/' ++ (String.mk (T.data ++ '.' :: hd) :: tl.map String.mk) := by
    simp only [stringsSplit, hdata, splitChars_append_sep, hpre, List.map_append, List.map_cons,
      List.append_assoc, List.singleton_append]
  simp only [memPath, hall, List.foldl_append, List.foldl_cons]
  rw [show List.foldl cleanStep [] (stringsSplit base '/') = memPath base from rfl, hfirst, hmore]

/-- The part of an episode name before the dot of the extension. -/
theorem name_stem_chars (d : Time) (n : Nat) :
    (d.formatDateOnly ++ "_episode" ++ toString n).data
        = d.formatDateOnly.data ++ '_' :: ("episode".data ++ (toString n).data) ∧
      '/' ∉ (d.formatDateOnly ++ "_episode" ++ toString n).data ∧
      '_' ∈ (d.formatDateOnly ++ "_episode" ++ toString n).data := by
  have hshape : (d.formatDateOnly ++ "_episode" ++ toString n).data
      = d.formatDateOnly.data ++ '_' :: ("episode".data ++ (toString n).data) := by
    simp only [String.data_append, List.append_assoc]
    rfl
  refine ⟨hshape, ?_, ?_⟩
  · rw [hshape]
    intro hm
    rcases List.mem_append.1 hm with hm | hm
    · rcases formatDateOnly_chars d _ hm with hdg | hdg
      · exact isDigit_ne _ '/' rfl hdg rfl
      · exact absurd hdg (by decide)
    · rcases List.mem_cons.1 hm with hm | hm
      · exact absurd hm (by decide)
      · rcases List.mem_append.1 hm with hm | hm
        · revert hm
          decide
        · exact isDigit_ne _ '/' rfl (repr_isDigit n _ hm) rfl
  · rw [hshape]
    exact List.mem_append_right _ (List.mem_cons_self _ _)

theorem name_stem_inj (d d' : Time) (n n' : Nat)
    (h : (d.formatDateOnly ++ "_episode" ++ toString n).data
      = (d'.formatDateOnly ++ "_episode" ++ toString n').data) : n = n' := by
  have date_no_us : ∀ t : Time, '_' ∉ t.formatDateOnly.data := by
    intro t hm
    rcases formatDateOnly_chars t _ hm with hdg | hdg
    · exact isDigit_ne _ '_' rfl hdg rfl
    · exact absurd hdg (by decide)
  rw [(name_stem_chars d n).1, (name_stem_chars d' n').1] at h
  obtain ⟨_, h4⟩ := split_first '_' _ _ _ _ (date_no_us d) (date_no_us d') h
  exact repr_injective n n' (String.ext (List.append_cancel_left h4))

/-- Inside a feed directory two positions never name the same node of the file system. -/
theorem memPath_index_inj (F : String) (total j j' : Nat) (item item' : Item) (p p' : String)
    (hj : j < total) (hj' : j' < total)
    (h : episodePath ("/podcasts/" ++ F) total j item = .ok p)
    (h' : episodePath ("/podcasts/" ++ F) total j' item' = .ok p')
    (hm : memPath p = memPath p') : j = j' := by
  obtain ⟨_, d, e, _, _, hdot, hp⟩ := episodePath_inv _ _ _ _ _ h
  obtain ⟨_, d', e', _, _, hdot', hp'⟩ := episodePath_inv _ _ _ _ _ h'
  rw [strconvItoa_sub _ _ hj.le] at hp
  rw [strconvItoa_sub _ _ hj'.le] at hp'
  obtain ⟨_, hs, hu⟩ := name_stem_chars d (total - j)
  obtain ⟨_, hs', hu'⟩ := name_stem_chars d' (total - j')
  obtain ⟨hd, more, hhd, hshape⟩ := memPath_episode ("/podcasts/" ++ F) _ e hs hu hdot
  obtain ⟨hd', more', hhd', hshape'⟩ := memPath_episode ("/podcasts/" ++ F) _ e' hs' hu' hdot'
  rw [hp, hp', hshape, hshape', List.append_assoc, List.append_assoc] at hm
  have h1 := List.append_cancel_left hm
  simp only [List.singleton_append, List.cons.injEq] at h1
  obtain ⟨h2, _⟩ := split_last '.' _ _ _ _ hhd hhd' (congrArg String.data h1.1)
  have := name_stem_inj d d' _ _ h2
  omega

theorem MemFS.openFile_fresh (fs fs1 : MemFS) (name : String)
    (h : MemFS.openFile fs name = .ok fs1) (hnone : fs.lookup (memPath name) = none) :
    fs1 = fs ++ [(memPath name, false)] := by
  unfold MemFS.openFile at h
  split at h
  · exact Except.noConfusion h
  · split at h
    · exact Except.noConfusion h
    · rw [hnone] at h
      exact (Except.ok.inj h).symm

theorem MemFS.lookup_append_fresh (fs : MemFS) (path q : List String) (hq : fs.lookup q = none)
    (hne : q ≠ path) : (fs ++ [(path, false)]).lookup q = none := by
  have hb : (q == path) = false := by simpa using hne
  simp [List.lookup_append, hq, List.lookup_cons, hb]

theorem MemFS.lookup_append_keep (fs : MemFS) (node : List String × Bool) (q : List String)
    (v : Bool) (hq : fs.lookup q = some v) : (fs ++ [node]).lookup q = some v := by
  simp [List.lookup_append, hq]

theorem MemFS.fileCount_append_file (fs : MemFS) (path : List String) :
    MemFS.fileCount (fs ++ [(path, false)]) = MemFS.fileCount fs + 1 := by
  simp [MemFS.fileCount, List.filter_append]

/-- On the in-memory file system a completed run over paths that name no node yet creates one
file per item. -/
theorem buildItems_memFS_files (F : String) (total : Nat) :
    ∀ (items : List Item) (j : Nat) (st st' : BuildState MemFS),
    j + items.length ≤ total →
    buildItems memFS ("/podcasts/" ++ F) total j items st = .ok st' →
    (∀ k item p, items[k]? = some item →
      episodePath ("/podcasts/" ++ F) total (j + k) item = .ok p →
      st.fs.lookup (memPath p) = none) →
    MemFS.fileCount st'.fs = MemFS.fileCount st.fs + items.length ∧
      (∀ q v, st.fs.lookup q = some v → st'.fs.lookup q = some v) ∧
      ∀ k item p, items[k]? = some item →
        episodePath ("/podcasts/" ++ F) total (j + k) item = .ok p →
        st'.fs.lookup (memPath p) = some false
  | [], j, st, st', _, h, _ => by
    simp only [buildItems] at h
    rw [← Except.ok.inj h]
    exact ⟨by simp, fun _ _ hq => hq, by simp⟩
  | item :: rest, j, st, st', hlen, h, hfresh => by
    obtain ⟨q, fs1, hq, hopen, hrest⟩ := buildItems_cons_inv memFS _ total j item rest st st' h
    simp only [List.length_cons] at hlen
    have hq0 : st.fs.lookup (memPath q) = none := hfresh 0 item q (by simp) (by simpa using hq)
    have hfs1 : fs1 = st.fs ++ [(memPath q, false)] := MemFS.openFile_fresh st.fs fs1 q hopen hq0
    obtain ⟨ih1, ih2, ih3⟩ := buildItems_memFS_files F total rest (j + 1) _ st' (by omega) hrest
      (by
        intro k it p hk hp
        have hklt : k < rest.length := (List.getElem?_eq_some_iff.1 hk).1
        have hne : memPath p ≠ memPath q := by
          intro e
          have := memPath_index_inj F total (j + 1 + k) j it item p q (by omega) (by omega) hp hq e
          omega
        show fs1.lookup (memPath p) = none
        rw [hfs1]
        exact MemFS.lookup_append_fresh st.fs _ _
          (hfresh (k + 1) it p (by simpa using hk)
            (by rwa [show j + (k + 1) = j + 1 + k by omega])) hne)
    have hcount : MemFS.fileCount fs1 = MemFS.fileCount st.fs + 1 := by
      rw [hfs1]
      exact MemFS.fileCount_append_file st.fs _
    have hkeep : ∀ x v, st.fs.lookup x = some v → fs1.lookup x = some v := by
      intro x v hx
      rw [hfs1]
      exact MemFS.lookup_append_keep st.fs _ x v hx
    refine ⟨?_, fun x v hx => ih2 x v (hkeep x v hx), ?_⟩
    · have : MemFS.fileCount st'.fs = MemFS.fileCount fs1 + rest.length := ih1
      simp only [List.length_cons]
      omega
    · intro k it p hk hp
      cases k with
      | zero =>
        simp only [List.getElem?_cons_zero, Option.some.injEq] at hk
        subst hk
        rw [Nat.add_zero, hq] at hp
        rw [← Except.ok.inj hp]
        apply ih2
        show fs1.lookup (memPath q) = some false
        rw [hfs1]
        simp [List.lookup_append, hq0, List.lookup_cons]
      | succ k =>
        exact ih3 k it p (by simpa using hk) (by rwa [show j + (k + 1) = j + 1 + k by omega] at hp)
/-! ## Decimal numerals read back -/

theorem toDigitsCore_ne_nil : ∀ (fuel n : Nat) (acc : List Char), 0 < fuel ∨ acc ≠ [] →
    Nat.toDigitsCore 10 fuel n acc ≠ []
  | 0, n, acc, h => by
    rcases h with h | h
    · omega
    · simpa [Nat.toDigitsCore] using h
  | fuel + 1, n, acc, _ => by
    simp only [Nat.toDigitsCore]
    split
    · simp
    · exact toDigitsCore_ne_nil fuel (n / 10) _ (Or.inr (by simp))

theorem parseDigits_toDigits (n : Nat) : parseDigits (Nat.toDigits 10 n) = some n := by
  have hne : Nat.toDigits 10 n ≠ [] := toDigitsCore_ne_nil (n + 1) n [] (Or.inl (by omega))
  have hall : (Nat.toDigits 10 n).all Char.isDigit = true := by
    rw [List.all_eq_true]
    exact toDigitsCore_isDigit _ _ [] (by simp)
  have hval : (Nat.toDigits 10 n).foldl digitVal 0 = n := by
    have := toDigitsCore_value (n + 1) n [] (by omega)
    simpa [Nat.toDigits] using this
  simp [parseDigits, hne, hall, hval]

/-- `ParseInt` reads a number back from its decimal digits. -/
theorem strconvParseInt_ofNat (n : Nat) (hn : n < 2 ^ 63) :
    strconvParseInt (strconvItoa (n : Int)) = some (n : Int) := by
  have hdata : (strconvItoa (n : Int)).data = Nat.toDigits 10 n := rfl
  have hne : Nat.toDigits 10 n ≠ [] := toDigitsCore_ne_nil (n + 1) n [] (Or.inl (by omega))
  cases hd : Nat.toDigits 10 n with
  | nil => exact absurd hd hne
  | cons c ds =>
    have hc : c.isDigit = true := by
      have := toDigitsCore_isDigit (n + 1) n [] (by simp) c
      apply this
      show c ∈ Nat.toDigits 10 n
      rw [hd]
      exact List.mem_cons_self _ _
    have h1 : ¬ c = '-' := isDigit_ne c '-' rfl hc
    have h2 : ¬ c = '+' := isDigit_ne c '+' rfl hc
    have hp := parseDigits_toDigits n
    rw [hd] at hp
    simp only [strconvParseInt, hdata, hd, h1, h2, if_false, hp, hn, if_true]

/-- The decimal digits of a negative number are not read as a number that is not negative. -/
theorem strconvParseInt_negSucc (m : Nat) :
    strconvParseInt (strconvItoa (Int.negSucc m)) = none ∨
      ∃ v, strconvParseInt (strconvItoa (Int.negSucc m)) = some v ∧ v < 0 := by
  have hdata : (strconvItoa (Int.negSucc m)).data = '-' :: Nat.toDigits 10 (m + 1) := rfl
  have hp := parseDigits_toDigits (m + 1)
  by_cases hr : m + 1 ≤ 2 ^ 63
  · right
    refine ⟨-((m + 1 : Nat) : Int), ?_, by omega⟩
    simp only [strconvParseInt, hdata, if_true, hp, hr]
  · left
    simp only [strconvParseInt, hdata, if_true, hp, hr, if_false]
/-! ## Names in a completed startup -/

/-- Naming in a completed startup: for a feed named `F` fetched with `N` items and an item at
position `j < N` whose date is `d` and whose first enclosure URL ends in `.suf` (`suf` without
a dot), the path expression of the build loop has the value
`/podcasts/F/` + `YYYY-MM-DD(d)` + `_episode` + decimal `N - j` + `.` + `suf`,
and every completed startup in which `F` is configured with that feed has this path as a key
of `episodeUrlMap`. The first item is numbered `N`, the last one 1. -/
theorem episode_path_formula (F : String) (feed : Feed) (j : Nat) (item : Item)
    (enc : Enclosure) (pre suf : String) (d : Time)
    (hitem : feed.items[j]? = some item) (henc : item.enclosures[0]? = some enc)
    (hurl : enc.url = pre ++ "." ++ suf) (hsuf : '.' ∉ suf.data)
    (hdate : item.publishedParsed = some d) :
    episodePath ("/podcasts/" ++ F) feed.items.length j item
        = .ok ("/podcasts/" ++ F ++ "/" ++ d.formatDateOnly ++ "_episode" ++
            toString (feed.items.length - j) ++ "." ++ suf) ∧
      (∀ (σ : Type) (fsys : FileSystem σ) (parseURL : String → Except String Feed)
          (config : Config) (st : BuildState σ) (i : Nat) (url : String),
        mainBuild fsys parseURL config = .ok st →
        config.feeds[i]? = some { name := F, url := url } → parseURL url = .ok feed →
        ("/podcasts/" ++ F ++ "/" ++ d.formatDateOnly ++ "_episode" ++
            toString (feed.items.length - j) ++ "." ++ suf) ∈ st.episodeUrlMap.keys) ∧
      (j = 0 → toString (feed.items.length - j) = toString feed.items.length) ∧
      (j + 1 = feed.items.length → toString (feed.items.length - j) = "1") := by
  have hjlt : j < feed.items.length := (List.getElem?_eq_some_iff.1 hitem).1
  obtain ⟨ext, _, hext, hok⟩ := episodePath_ok ("/podcasts/" ++ F) feed.items.length j item
    enc d henc hdate
  rw [hurl, stringsSplit_last_of_suffix pre suf hsuf] at hext
  rw [← Option.some.inj hext, strconvItoa_sub _ _ hjlt.le] at hok
  have hflat : "/podcasts/" ++ F ++ "/" ++ (d.formatDateOnly ++ "_episode" ++
        toString (feed.items.length - j) ++ "." ++ suf)
      = "/podcasts/" ++ F ++ "/" ++ d.formatDateOnly ++ "_episode" ++
        toString (feed.items.length - j) ++ "." ++ suf := by
    simp only [String.append_assoc]
  rw [hflat] at hok
  refine ⟨hok, ?_, fun h => by rw [h, Nat.sub_zero], fun h => ?_⟩
  · intro σ fsys parseURL config st i url hbuild hfc hfeed
    obtain ⟨feed', hfeed', hidx⟩ := mainBuild_aligned fsys parseURL config st hbuild i _ hfc
    rw [hfeed] at hfeed'
    rw [← Except.ok.inj hfeed'] at hidx
    obtain ⟨p, hp, hmem⟩ :=
      (buildFeeds_mem fsys _ config.feeds 0 _ st hbuild).2 i _ feed j item hfc hidx hitem
    rw [hok] at hp
    rw [Except.ok.inj hp]
    exact hmem
  · rw [show feed.items.length - j = 1 by omega]
    rfl

/-! ## Claims -/

/-- C1 (the code does otherwise): in `downConfig` the feed named `Tech` is fetched with two
items, so item A at position 0 should get `/podcasts/Tech/2024-01-02_episode2.mp3`. The fetch
of the feed before it fails, `fetchFeeds` returns `Tech` at position 0, and the loop pairs it
with the name `Down`: the path it computes and registers for item A is
`/podcasts/Down/2024-01-02_episode2.mp3`, no path under `/podcasts/Tech/` is registered, and
the next iteration panics. -/
theorem sibling_failure_misnames_feed :
    downConfig.feeds[1]? = some ⟨"Tech", "https://tech.example/rss"⟩ ∧
      exampleParseURL "https://tech.example/rss" = .ok techFeed ∧
      techFeed.items[0]? = some techItemA ∧
      downConfig.feeds[0]? = some ⟨"Down", "https://down.example/rss"⟩ ∧
      (fetchFeeds exampleParseURL downConfig)[0]? = some techFeed ∧
      episodePath ("/podcasts/" ++ "Down") techFeed.items.length 0 techItemA
        = .ok "/podcasts/Down/2024-01-02_episode2.mp3" ∧
      buildFeeds memFS (fetchFeeds exampleParseURL downConfig) 0
          [⟨"Down", "https://down.example/rss"⟩]
          { fs := memFS.mkdir memFS.newMemFS "/podcasts", episodeUrlMap := [] }
        = .ok downState ∧
      downState.episodeUrlMap.get "/podcasts/Tech/2024-01-02_episode2.mp3" = none ∧
      downState.episodeUrlMap.get "/podcasts/Down/2024-01-02_episode2.mp3" = some techItemA ∧
      mainBuild memFS exampleParseURL downConfig = .error Abort.indexOutOfRange :=
  ⟨rfl, rfl, rfl, rfl, rfl, rfl, rfl, rfl, rfl, rfl⟩

/-- C2 (the code does otherwise): with a first feed that cannot be fetched, `fetchFeeds` returns
one feed for two configured feeds; the loop gives the fetched feed of `Tech` to the name `Down`
and then panics on `feeds[1]`, so startup aborts on every file system. -/
theorem failed_fetch_aborts_build :
    fetchFeeds exampleParseURL downConfig = [techFeed] ∧
      buildFeeds recordingFS (fetchFeeds exampleParseURL downConfig) 0
          [⟨"Down", "https://down.example/rss"⟩] { fs := [], episodeUrlMap := [] }
        = .ok { fs := [FsCall.mkdir "/podcasts/Down",
                  FsCall.openFile "/podcasts/Down/2024-01-02_episode2.mp3",
                  FsCall.openFile "/podcasts/Down/2024-01-01_episode1.mp3"],
                episodeUrlMap := [("/podcasts/Down/2024-01-01_episode1.mp3", techItemB),
                  ("/podcasts/Down/2024-01-02_episode2.mp3", techItemA)] } ∧
      mainBuild recordingFS exampleParseURL downConfig = .error Abort.indexOutOfRange ∧
      ∀ (σ : Type) (fsys : FileSystem σ) (st : BuildState σ),
        mainBuild fsys exampleParseURL downConfig ≠ .ok st :=
  ⟨rfl, rfl, rfl, fun _ fsys st =>
    mainBuild_fetch_failure fsys exampleParseURL downConfig
      ⟨⟨"Down", "https://down.example/rss"⟩, by simp [downConfig], "no such host", rfl⟩ st⟩

/-- C3 as stated fails: the episode of `streamFeed` has an enclosure and a date, but its URL
has no file extension, so what follows the last dot holds slashes; `OpenFile` of the in-memory
file system finds no directory `2024-01-02_episode1.com` and startup ends in `log.Fatalf`: no
file, no entry. And with the feed `Tech` listed twice, startup completes with 2 files and 2
entries for two fetched feeds of 2 items each. -/
theorem feed_contribution_counterexample :
    (∀ item ∈ streamFeed.items, item.enclosures ≠ [] ∧ item.publishedParsed ≠ none) ∧
      streamParseURL "https://stream.example/rss" = .ok streamFeed ∧
      episodePath "/podcasts/Stream" 1 0 streamItem
        = .ok "/podcasts/Stream/2024-01-02_episode1.com/episodes/123" ∧
      (∃ err, mainBuild memFS streamParseURL streamConfig
        = .error (Abort.fatal
            "Failed to create episode path: /podcasts/Stream/2024-01-02_episode1.com/episodes/123"
            err)) ∧
      (∃ st, mainBuild memFS exampleParseURL twiceConfig = .ok st ∧
        MemFS.fileCount st.fs = 2 ∧ st.episodeUrlMap.length = 2) :=
  ⟨by decide, rfl, rfl, ⟨_, rfl⟩, ⟨_, rfl, rfl, rfl⟩⟩

/-- C3 amended: for a feed of `N` items that all have an enclosure and a date, every item gets
a path, and two positions never get the same path nor the same node of the file system (also
for equal dates and extensions). When every `OpenFile` of the loop succeeds and the map holds
none of these paths, the loop adds exactly `N` entries, each path mapped to its own item; on
the in-memory file system, when it holds no node at these paths, the loop adds exactly `N`
files, one at the node of each path. A file system that accepts every create lets the loop
complete. -/
theorem feed_contributes_when_accepted {σ : Type} (fsys : FileSystem σ) (F : String)
    (items : List Item)
    (hitems : ∀ item ∈ items, item.enclosures ≠ [] ∧ item.publishedParsed ≠ none) :
    (∀ j item, items[j]? = some item →
        ∃ p, episodePath ("/podcasts/" ++ F) items.length j item = .ok p) ∧
      (∀ j j' item item' p p', items[j]? = some item → items[j']? = some item' →
        episodePath ("/podcasts/" ++ F) items.length j item = .ok p →
        episodePath ("/podcasts/" ++ F) items.length j' item' = .ok p' →
        p = p' ∨ memPath p = memPath p' → j = j') ∧
      (∀ st st' : BuildState σ,
        buildItems fsys ("/podcasts/" ++ F) items.length 0 items st = .ok st' →
        (∀ j item p, items[j]? = some item →
          episodePath ("/podcasts/" ++ F) items.length j item = .ok p →
          st.episodeUrlMap.get p = none) →
        st'.episodeUrlMap.length = st.episodeUrlMap.length + items.length ∧
          ∀ j item, items[j]? = some item →
            ∃ p, episodePath ("/podcasts/" ++ F) items.length j item = .ok p ∧
              st'.episodeUrlMap.get p = some item) ∧
      (∀ st st' : BuildState MemFS,
        buildItems memFS ("/podcasts/" ++ F) items.length 0 items st = .ok st' →
        (∀ j item p, items[j]? = some item →
          episodePath ("/podcasts/" ++ F) items.length j item = .ok p →
          st.fs.lookup (memPath p) = none) →
        MemFS.fileCount st'.fs = MemFS.fileCount st.fs + items.length ∧
          ∀ j item p, items[j]? = some item →
            episodePath ("/podcasts/" ++ F) items.length j item = .ok p →
            st'.fs.lookup (memPath p) = some false) ∧
      ((∀ s p, ∃ s', fsys.openFile s p = .ok s') →
        ∀ st, ∃ st', buildItems fsys ("/podcasts/" ++ F) items.length 0 items st = .ok st') := by
  refine ⟨?_, ?_, ?_, ?_, ?_⟩
  · intro j item hj
    obtain ⟨henc, hdate⟩ := hitems item (List.getElem?_mem hj)
    obtain ⟨enc, he⟩ : ∃ enc, item.enclosures[0]? = some enc := by
      cases hl : item.enclosures with
      | nil => exact absurd hl henc
      | cons a l => exact ⟨a, by simp⟩
    obtain ⟨d, hd⟩ := Option.ne_none_iff_exists'.1 hdate
    obtain ⟨ext, _, _, hp⟩ := episodePath_ok ("/podcasts/" ++ F) items.length j item enc d he hd
    exact ⟨_, hp⟩
  · intro j j' item item' p p' hj hj' hp hp' hsame
    have hlt := (List.getElem?_eq_some_iff.1 hj).1
    have hlt' := (List.getElem?_eq_some_iff.1 hj').1
    rcases hsame with e | e
    · rw [← e] at hp'
      exact episodePath_index_inj F items.length j j' item item' p hlt hlt' hp hp'
    · exact memPath_index_inj F items.length j j' item item' p p' hlt hlt' hp hp' e
  · intro st st' hrun hfresh
    refine ⟨?_, ?_⟩
    · exact buildItems_length fsys F items.length items 0 st st' (by omega) hrun (by
        intro k item p hk hp
        rw [Nat.zero_add] at hp
        exact hfresh k item p hk hp)
    · intro j item hj
      have := buildItems_get_self fsys F items.length items 0 st st' (by omega) hrun j item hj
      rwa [Nat.zero_add] at this
  · intro st st' hrun hfresh
    obtain ⟨h1, _, h3⟩ := buildItems_memFS_files F items.length items 0 st st' (by omega) hrun (by
      intro k item p hk hp
      rw [Nat.zero_add] at hp
      exact hfresh k item p hk hp)
    refine ⟨h1, ?_⟩
    intro j item p hj hp
    exact h3 j item p hj (by rwa [Nat.zero_add])
  · intro haccept st
    exact buildItems_complete fsys _ _ haccept items 0 st hitems

/-- Witness of C3 amended: two episodes of the same day with the same extension, registered
in the empty directory `/podcasts/Daily` of the in-memory file system: two files. -/
theorem feed_contributes_when_accepted_witness :
    (∀ item ∈ sameDayItems, item.enclosures ≠ [] ∧ item.publishedParsed ≠ none) ∧
      buildItems memFS ("/podcasts/" ++ "Daily") sameDayItems.length 0 sameDayItems dailyStart
        = .ok dailyEnd ∧
      MemFS.fileCount dailyStart.fs = 0 ∧
      MemFS.fileCount dailyEnd.fs = MemFS.fileCount dailyStart.fs + sameDayItems.length ∧
      dailyEnd.episodeUrlMap.length = dailyStart.episodeUrlMap.length + sameDayItems.length :=
  have hwf : ∀ item ∈ sameDayItems, item.enclosures ≠ [] ∧ item.publishedParsed ≠ none := by
    decide
  have hpaths : ∀ (j : Nat) (item : Item) (p : String), sameDayItems[j]? = some item →
      episodePath ("/podcasts/" ++ "Daily") sameDayItems.length j item = .ok p →
      p = "/podcasts/Daily/2024-01-01_episode2.mp3" ∨
        p = "/podcasts/Daily/2024-01-01_episode1.mp3" := by
    intro j item p hj hp
    match j, hj, hp with
    | 0, hj, hp =>
      have hitem := Option.some.inj hj
      rw [← hitem] at hp
      exact Or.inl (Except.ok.inj hp).symm
    | 1, hj, hp =>
      have hitem := Option.some.inj hj
      rw [← hitem] at hp
      exact Or.inr (Except.ok.inj hp).symm
    | n + 2, hj, _ => exact Option.noConfusion hj
  have h := feed_contributes_when_accepted memFS "Daily" sameDayItems hwf
  ⟨hwf, rfl, rfl,
    (h.2.2.2.1 dailyStart dailyEnd rfl (by
      intro j item p hj hp
      rcases hpaths j item p hj hp with e | e <;> rw [e] <;> rfl)).1,
    (h.2.2.1 dailyStart dailyEnd rfl (by
      intro j item p hj hp
      rcases hpaths j item p hj hp with e | e <;> rw [e] <;> rfl)).1⟩

/-- C4: when startup completes for a configuration with pairwise distinct feed names (then
every feed was fetched), `episodeUrlMap` maps the path of every item of every feed to that
item, and it has no other key. -/
theorem resolver_exact {σ : Type} (fsys : FileSystem σ)
    (parseURL : String → Except String Feed) (config : Config) (st : BuildState σ)
    (hnames : (config.feeds.map FeedConfig.name).Nodup)
    (hbuild : mainBuild fsys parseURL config = .ok st) :
    (∀ (i j : Nat) (fc : FeedConfig) (feed : Feed) (item : Item), config.feeds[i]? = some fc → parseURL fc.url = .ok feed →
        feed.items[j]? = some item →
        ∃ p, episodePath ("/podcasts/" ++ fc.name) feed.items.length j item = .ok p ∧
          st.episodeUrlMap.get p = some item) ∧
      (∀ p, p ∈ st.episodeUrlMap.keys →
        ∃ (i j : Nat) (fc : FeedConfig) (feed : Feed) (item : Item),
          config.feeds[i]? = some fc ∧ parseURL fc.url = .ok feed ∧
          feed.items[j]? = some item ∧
          episodePath ("/podcasts/" ++ fc.name) feed.items.length j item = .ok p) := by
  have haligned := mainBuild_aligned fsys parseURL config st hbuild
  refine ⟨?_, ?_⟩
  · intro i j fc feed item hfc hfeed hitem
    obtain ⟨feed', hfeed', hidx⟩ := haligned i fc hfc
    rw [hfeed] at hfeed'
    rw [← Except.ok.inj hfeed'] at hidx
    exact buildFeeds_get_self fsys _ config.feeds 0 _ st hnames hbuild i fc feed j item hfc hidx
      hitem
  · intro p hp
    by_contra hnot
    obtain ⟨v, hv⟩ := (EpisodeMap.mem_keys_iff p _).1 hp
    have hsame := buildFeeds_get_other fsys _ p config.feeds 0 _ st hbuild (by
      intro k fc feed j item hfc hidx hitem hbad
      obtain ⟨feed', hfeed', hidx'⟩ := haligned k fc hfc
      rw [hidx] at hidx'
      rw [← Option.some.inj hidx'] at hfeed'
      exact hnot ⟨k, j, fc, feed, item, hfc, hfeed', hitem, hbad⟩)
    rw [hv] at hsame
    simp [EpisodeMap.get] at hsame

/-- Witness of C4, the feed `Tech`: `..._episode2.mp3` is item A, `..._episode1.mp3` is
item B, and the map has these two keys. -/
theorem resolver_exact_witness :
    (techConfig.feeds.map FeedConfig.name).Nodup ∧
      mainBuild recordingFS exampleParseURL techConfig = .ok techState ∧
      techState.episodeUrlMap.get "/podcasts/Tech/2024-01-02_episode2.mp3" = some techItemA ∧
      techState.episodeUrlMap.get "/podcasts/Tech/2024-01-01_episode1.mp3" = some techItemB ∧
      techState.episodeUrlMap.keys
        = ["/podcasts/Tech/2024-01-01_episode1.mp3", "/podcasts/Tech/2024-01-02_episode2.mp3"] ∧
      ∀ p, p ∈ techState.episodeUrlMap.keys →
        ∃ (i j : Nat) (fc : FeedConfig) (feed : Feed) (item : Item),
          techConfig.feeds[i]? = some fc ∧
          exampleParseURL fc.url = .ok feed ∧ feed.items[j]? = some item ∧
          episodePath ("/podcasts/" ++ fc.name) feed.items.length j item = .ok p :=
  have hnd : (techConfig.feeds.map FeedConfig.name).Nodup := by decide
  ⟨hnd, rfl, rfl, rfl, rfl,
    (resolver_exact recordingFS exampleParseURL techConfig techState hnd rfl).2⟩

/-- C5: for a GET whose path is a key of the built map, when the fetch of the first
enclosure URL of the mapped item succeeds, the handler fetches upstream exactly once, that
URL; the bytes it writes are the upstream body; and it does not call the WebDAV handler. -/
theorem handler_relays_upstream {σ : Type} (fsys : FileSystem σ)
    (parseURL : String → Except String Feed) (config : Config) (st : BuildState σ)
    (httpGet : String → Except String UpstreamResponse) (r : Request) (item : Item)
    (resp : UpstreamResponse)
    (hbuild : mainBuild fsys parseURL config = .ok st)
    (hget : r.method = "GET")
    (hkey : st.episodeUrlMap.get r.urlPath = some item)
    (hup : ∀ enc, item.enclosures[0]? = some enc → httpGet enc.url = .ok resp) :
    ∃ enc actions, item.enclosures[0]? = some enc ∧
      mainHandler st.episodeUrlMap httpGet r = .ok actions ∧
      upstreamFetches actions = [enc.url] ∧
      bodyWritten actions = resp.body ∧
      delegated actions = false := by
  obtain ⟨hpre, enc, henc⟩ := mainBuild_entry_shape fsys parseURL config st hbuild _ _ hkey
  have hrun : mainHandler st.episodeUrlMap httpGet r
      = .ok [Action.httpGet enc.url, Action.setHeader "Content-Type" enc.type,
          Action.setHeader "Content-Length" (strconvItoa resp.contentLength),
          Action.ioCopy resp.body, Action.bodyClose] := by
    simp only [mainHandler, hget, hpre, hkey, henc, hup enc henc, if_true]
  refine ⟨enc, _, henc, hrun, ?_, ?_, ?_⟩
  · simp [upstreamFetches]
  · simp [bodyWritten]
  · rfl

/-- Witness of C5: GET of the path of item A with an upstream that answers three bytes. -/
theorem handler_relays_upstream_witness :
    mainBuild recordingFS exampleParseURL techConfig = .ok techState ∧
      techState.episodeUrlMap.get episodeRequest.urlPath = some techItemA ∧
      mainHandler techState.episodeUrlMap upstreamSized episodeRequest
        = .ok [Action.httpGet "https://cdn/x.mp3",
            Action.setHeader "Content-Type" "audio/mpeg",
            Action.setHeader "Content-Length" "3",
            Action.ioCopy [1, 2, 3], Action.bodyClose] ∧
      ∃ enc actions, techItemA.enclosures[0]? = some enc ∧
        mainHandler techState.episodeUrlMap upstreamSized episodeRequest = .ok actions ∧
        upstreamFetches actions = [enc.url] ∧
        bodyWritten actions = [1, 2, 3] ∧
        delegated actions = false :=
  ⟨rfl, rfl, rfl,
    handler_relays_upstream recordingFS exampleParseURL techConfig techState upstreamSized
      episodeRequest techItemA ⟨200, 3, [1, 2, 3]⟩ rfl rfl rfl (fun _ _ => rfl)⟩

/-- C6 (the code does otherwise): a GET of a path under `/podcasts/` that is not a key of the
map returns at once: the handler performs no action, so the WebDAV handler is not called. A
request with another method for the same path is delegated. -/
theorem unmapped_get_not_delegated :
    mainBuild recordingFS exampleParseURL techConfig = .ok techState ∧
      stringsHasPrefix missingRequest.urlPath "/podcasts/" = true ∧
      techState.episodeUrlMap.get missingRequest.urlPath = none ∧
      (∀ httpGet, ∃ actions,
        mainHandler techState.episodeUrlMap httpGet missingRequest = .ok actions ∧
        actions = [] ∧ delegated actions = false) ∧
      ∀ httpGet,
        mainHandler techState.episodeUrlMap httpGet { missingRequest with method := "PROPFIND" }
          = .ok [Action.serveHTTP] :=
  ⟨rfl, rfl, rfl, fun _ => ⟨[], rfl, rfl, rfl⟩, fun _ => rfl⟩

/-- C7 (the code does otherwise): a GET of a path under `/podcasts/` that is not a key of the
map fetches nothing upstream, and the handler returns without writing: the response is the
empty 200 that net/http sends for it. -/
theorem unmapped_get_empty_success :
    mainBuild recordingFS exampleParseURL techConfig = .ok techState ∧
      techState.episodeUrlMap.get missingRequest.urlPath = none ∧
      ∀ httpGet, ∃ actions,
        mainHandler techState.episodeUrlMap httpGet missingRequest = .ok actions ∧
        upstreamFetches actions = [] ∧ delegated actions = false ∧
        statusSent actions = 200 ∧ bodyWritten actions = [] :=
  ⟨rfl, rfl, fun _ => ⟨[], rfl, rfl, rfl, rfl, rfl⟩⟩

/-- C8 (the code does otherwise): a fetched feed with an item without enclosure makes
`makeEpisodeName` panic on `item.Enclosures[0]`; startup aborts on every file system, and the
items after it are not registered. -/
theorem item_without_enclosure_aborts_build :
    makeEpisodeName 2 noteItem = .error Abort.indexOutOfRange ∧
      mainBuild recordingFS exampleParseURL notesConfig = .error Abort.indexOutOfRange ∧
      ∀ (σ : Type) (fsys : FileSystem σ) (st : BuildState σ),
        mainBuild fsys exampleParseURL notesConfig ≠ .ok st :=
  ⟨rfl, rfl, fun _ fsys st =>
    mainBuild_no_enclosure fsys exampleParseURL notesConfig 0 1
      ⟨"Notes", "https://notes.example/rss"⟩ notesFeed noteItem rfl rfl rfl rfl st⟩

/-- C9 as stated fails: when the upstream cannot be reached the handler answers 500 and
writes a body, the 29 bytes of its error text; when the upstream answers 404 the handler
relays that body with status 200. -/
theorem fetch_failure_counterexample :
    mainBuild recordingFS exampleParseURL techConfig = .ok techState ∧
      (∃ actions,
        mainHandler techState.episodeUrlMap upstreamDown episodeRequest = .ok actions ∧
        statusSent actions = 500 ∧ (bodyWritten actions).length = 29 ∧
        bodyWritten actions ≠ []) ∧
      (∃ actions,
        mainHandler techState.episodeUrlMap upstreamNotFound episodeRequest = .ok actions ∧
        statusSent actions = 200 ∧ bodyWritten actions = [110, 111, 10]) :=
  ⟨rfl, ⟨_, rfl, rfl, rfl, by decide⟩, ⟨_, rfl, rfl, rfl⟩⟩

/-- C9 amended: for a GET whose path is a key of the built map, when `http.Get` of the first
enclosure URL returns an error, the handler fetches once, answers status 500 with
`http.Error`, writes the text `Error fetching audio content` and a newline and nothing else,
and does not call the WebDAV handler. -/
theorem fetch_error_gives_500 {σ : Type} (fsys : FileSystem σ)
    (parseURL : String → Except String Feed) (config : Config) (st : BuildState σ)
    (httpGet : String → Except String UpstreamResponse) (r : Request) (item : Item)
    (hbuild : mainBuild fsys parseURL config = .ok st)
    (hget : r.method = "GET")
    (hkey : st.episodeUrlMap.get r.urlPath = some item)
    (hup : ∀ enc, item.enclosures[0]? = some enc → ∃ e, httpGet enc.url = .error e) :
    ∃ enc actions, item.enclosures[0]? = some enc ∧
      mainHandler st.episodeUrlMap httpGet r = .ok actions ∧
      upstreamFetches actions = [enc.url] ∧
      statusSent actions = 500 ∧
      bodyWritten actions = ("Error fetching audio content" ++ "\n").toUTF8.data.toList ∧
      delegated actions = false := by
  obtain ⟨hpre, enc, henc⟩ := mainBuild_entry_shape fsys parseURL config st hbuild _ _ hkey
  obtain ⟨e, he⟩ := hup enc henc
  have hrun : mainHandler st.episodeUrlMap httpGet r
      = .ok [Action.httpGet enc.url, Action.httpError "Error fetching audio content" 500] := by
    simp only [mainHandler, hget, hpre, hkey, henc, he, if_true]
  refine ⟨enc, _, henc, hrun, ?_, ?_, ?_, ?_⟩
  · simp [upstreamFetches]
  · rfl
  · simp [bodyWritten]
  · rfl

/-- Witness of C9 amended: GET of the path of item A with an unreachable upstream. -/
theorem fetch_error_gives_500_witness :
    mainBuild recordingFS exampleParseURL techConfig = .ok techState ∧
      techState.episodeUrlMap.get episodeRequest.urlPath = some techItemA ∧
      ∃ enc actions, techItemA.enclosures[0]? = some enc ∧
        mainHandler techState.episodeUrlMap upstreamDown episodeRequest = .ok actions ∧
        upstreamFetches actions = [enc.url] ∧
        statusSent actions = 500 ∧
        bodyWritten actions = ("Error fetching audio content" ++ "\n").toUTF8.data.toList ∧
        delegated actions = false :=
  ⟨rfl, rfl,
    fetch_error_gives_500 recordingFS exampleParseURL techConfig techState upstreamDown
      episodeRequest techItemA rfl rfl rfl (fun _ _ => ⟨"connection refused", rfl⟩)⟩

/-- C10: for a GET whose path is a key of the built map, when the fetch succeeds (with a
`ContentLength` in the range of `int64`), the handler sets `Content-Length` to the decimal
digits of the upstream `ContentLength`, and the response carries the field if and only if the
upstream provides a length (`ContentLength` is not negative), then with that value; for an
unknown length the handler sets `-1`, net/http rejects it, and the response has no
`Content-Length`. -/
theorem content_length_response {σ : Type} (fsys : FileSystem σ)
    (parseURL : String → Except String Feed) (config : Config) (st : BuildState σ)
    (httpGet : String → Except String UpstreamResponse) (r : Request) (item : Item)
    (resp : UpstreamResponse)
    (hbuild : mainBuild fsys parseURL config = .ok st)
    (hget : r.method = "GET")
    (hkey : st.episodeUrlMap.get r.urlPath = some item)
    (hup : ∀ enc, item.enclosures[0]? = some enc → httpGet enc.url = .ok resp)
    (hrange : resp.contentLength < 2 ^ 63) :
    ∃ actions, mainHandler st.episodeUrlMap httpGet r = .ok actions ∧
      handlerHeader "Content-Length" actions = some (strconvItoa resp.contentLength) ∧
      (responseContentLength actions ≠ none ↔ 0 ≤ resp.contentLength) ∧
      (0 ≤ resp.contentLength →
        responseContentLength actions = some (strconvItoa resp.contentLength)) ∧
      (resp.contentLength < 0 → responseContentLength actions = none) := by
  obtain ⟨hpre, enc, henc⟩ := mainBuild_entry_shape fsys parseURL config st hbuild _ _ hkey
  have hrun : mainHandler st.episodeUrlMap httpGet r
      = .ok [Action.httpGet enc.url, Action.setHeader "Content-Type" enc.type,
          Action.setHeader "Content-Length" (strconvItoa resp.contentLength),
          Action.ioCopy resp.body, Action.bodyClose] := by
    simp only [mainHandler, hget, hpre, hkey, henc, hup enc henc, if_true]
  have hne : ¬ ("Content-Type" = "Content-Length") := by decide
  have hset : handlerHeader "Content-Length"
      [Action.httpGet enc.url, Action.setHeader "Content-Type" enc.type,
        Action.setHeader "Content-Length" (strconvItoa resp.contentLength),
        Action.ioCopy resp.body, Action.bodyClose]
      = some (strconvItoa resp.contentLength) := by
    simp only [handlerHeader, List.foldl_cons, List.foldl_nil, headerStep, hne, if_false, if_true]
  have hpos : 0 ≤ resp.contentLength →
      responseContentLength [Action.httpGet enc.url, Action.setHeader "Content-Type" enc.type,
        Action.setHeader "Content-Length" (strconvItoa resp.contentLength),
        Action.ioCopy resp.body, Action.bodyClose] = some (strconvItoa resp.contentLength) := by
    intro h0
    obtain ⟨n, hn⟩ := Int.eq_ofNat_of_zero_le h0
    have hlt : n < 2 ^ 63 := by
      have := hrange
      rw [hn] at this
      exact_mod_cast this
    simp only [responseContentLength, hset]
    rw [hn, strconvParseInt_ofNat n hlt]
    simp
  have hneg : resp.contentLength < 0 →
      responseContentLength [Action.httpGet enc.url, Action.setHeader "Content-Type" enc.type,
        Action.setHeader "Content-Length" (strconvItoa resp.contentLength),
        Action.ioCopy resp.body, Action.bodyClose] = none := by
    intro h0
    obtain ⟨m, hm⟩ := Int.eq_negSucc_of_lt_zero h0
    simp only [responseContentLength, hset]
    rw [hm]
    rcases strconvParseInt_negSucc m with hp | ⟨v, hp, hv⟩
    · rw [hp]
    · have hv' : ¬ (0 ≤ v) := by omega
      rw [hp]
      simp only [hv', if_false]
  refine ⟨_, hrun, hset, ?_, hpos, hneg⟩
  constructor
  · intro hsome
    by_contra hlt
    exact hsome (hneg (by omega))
  · intro h0
    rw [hpos h0]
    exact Option.noConfusion

/-- Witness of C10: an upstream that announces 3 bytes gives `Content-Length: 3`; the same
handler with an upstream that announces no length sets `-1` and the response has no
`Content-Length`. -/
theorem content_length_response_witness :
    mainBuild recordingFS exampleParseURL techConfig = .ok techState ∧
      techState.episodeUrlMap.get episodeRequest.urlPath = some techItemA ∧
      (∃ actions,
        mainHandler techState.episodeUrlMap upstreamSized episodeRequest = .ok actions ∧
        handlerHeader "Content-Length" actions = some "3" ∧
        responseContentLength actions = some "3") ∧
      (∃ actions,
        mainHandler techState.episodeUrlMap upstreamUnsized episodeRequest = .ok actions ∧
        handlerHeader "Content-Length" actions = some "-1" ∧
        responseContentLength actions = none) :=
  have hsized := content_length_response recordingFS exampleParseURL techConfig techState
    upstreamSized episodeRequest techItemA ⟨200, 3, [1, 2, 3]⟩ rfl rfl rfl (fun _ _ => rfl)
    (by decide)
  have hunsized := content_length_response recordingFS exampleParseURL techConfig techState
    upstreamUnsized episodeRequest techItemA ⟨200, -1, [1, 2, 3]⟩ rfl rfl rfl (fun _ _ => rfl)
    (by decide)
  ⟨rfl, rfl,
    (let ⟨actions, hrun, hset, _, hpos, _⟩ := hsized
     ⟨actions, hrun, hset, hpos (by decide)⟩),
    (let ⟨actions, hrun, hset, _, _, hneg⟩ := hunsized
     ⟨actions, hrun, hset, hneg (by decide)⟩)⟩
end Podcast2Webdav
